import Mathlib

/-!
# Verification of the bustub storage-engine core

Shallow embedding of the repository's buffer pool manager, LRU replacer,
B+ tree node pages, B+ tree insert algorithm and index iterator, together
with theorems settling the specification claims about them.

Conventions:
* `page_id_t` is embedded as `Int`, with `INVALID_PAGE_ID = -1`.
* `frame_id_t` is embedded as `Nat` (a frame index).
* `std::unordered_map<page_id_t, frame_id_t>` is embedded as an association
  list `List (Int × Nat)`; crucially, C++ `operator[]` default-inserts a
  zero value for an absent key, and the embedding reproduces that.
* Machine integers never overflow in the modelled scenarios, so sizes and
  pin counts are `Nat` / `Int` without wraparound.
-/

namespace Bustub

/-! ## LRU replacer (src/buffer/lru_replacer.cpp)

State of `LRUReplacer`: `lru_list_` is a doubly-linked list of frame ids,
most recently unpinned at the front; `lru_map_` maps a frame id to its
list node and is used only for membership/erasure, so it is represented
implicitly by list membership.  `max_size_` is the constructor argument
`num_pages`. -/

structure LRUReplacer where
  max_size : Nat
  lru_list : List Nat
  deriving Repr, DecidableEq

namespace LRUReplacer

/-- `LRUReplacer::Victim`: if the list is empty return `none`, otherwise
return the back of the list (least recently unpinned) and remove it from
the list and the map. -/
def Victim (r : LRUReplacer) : Option Nat × LRUReplacer :=
  if r.lru_list.isEmpty then
    (none, r)
  else
    (r.lru_list.getLast?, { r with lru_list := r.lru_list.dropLast })

/-- `LRUReplacer::Pin`: if the frame is not tracked, do nothing;
otherwise erase it from the list and the map. -/
def Pin (r : LRUReplacer) (frame_id : Nat) : LRUReplacer :=
  if frame_id ∈ r.lru_list then
    { r with lru_list := r.lru_list.erase frame_id }
  else
    r

/-- `LRUReplacer::Unpin`: duplicate unpin is a no-op; unpin beyond the
configured capacity is a no-op; otherwise push the frame at the front of
the list (most recently unpinned). -/
def Unpin (r : LRUReplacer) (frame_id : Nat) : LRUReplacer :=
  if frame_id ∈ r.lru_list then
    r
  else if r.max_size ≤ r.lru_list.length then
    r
  else
    { r with lru_list := frame_id :: r.lru_list }

/-- `LRUReplacer::Size`: the number of frames eligible for eviction. -/
def Size (r : LRUReplacer) : Nat := r.lru_list.length

end LRUReplacer

/-! ## B+ tree page index accessors (src/storage/page/b_plus_tree_internal_page.cpp)

`KeyAt`, `SetKeyAt`, `ValueAt` and `Remove` guard the index with the
condition `index < 0 && index >= GetSize()` and throw an `OUT_OF_RANGE`
exception when it holds.  The embedding keeps the guard exactly as
written (a conjunction) and returns `Except` to make a raised exception
observable.  The slot array is a list of (key, value) pairs; an
out-of-bounds C++ array read is embedded as an `Option` payload. -/

/-- The literal bounds-check condition of the accessors:
`index < 0 && index >= GetSize()`. -/
def indexGuard (index size : Int) : Bool :=
  index < 0 && index ≥ size

/-- A read of `array_[index]` with an `Int` index: in-bounds slots give
the stored pair, out-of-bounds reads (negative or past the end) give
`none` (indeterminate data in C++). -/
def slotRead (arr : List (Int × Int)) (index : Int) : Option (Int × Int) :=
  if 0 ≤ index then arr.get? index.toNat else none

/-- `BPlusTreeInternalPage::KeyAt` over a slot list `arr`. -/
def pageKeyAt (arr : List (Int × Int)) (index : Int) : Except String (Option Int) :=
  if indexGuard index arr.length then
    .error "OUT_OF_RANGE"
  else
    .ok ((slotRead arr index).map Prod.fst)

/-- `BPlusTreeInternalPage::ValueAt` over a slot list `arr`. -/
def pageValueAt (arr : List (Int × Int)) (index : Int) : Except String (Option Int) :=
  if indexGuard index arr.length then
    .error "OUT_OF_RANGE"
  else
    .ok ((slotRead arr index).map Prod.snd)

/-- `BPlusTreeInternalPage::SetKeyAt` over a slot list `arr`:
`array_[index].first = key`. -/
def pageSetKeyAt (arr : List (Int × Int)) (index : Int) (key : Int) :
    Except String (List (Int × Int)) :=
  if indexGuard index arr.length then
    .error "OUT_OF_RANGE"
  else
    .ok (match slotRead arr index with
      | some p => arr.set index.toNat (key, p.2)
      | none => arr)

/-- The shift loop of `BPlusTreeInternalPage::Remove`:
`for (int i = index; i < GetSize() - 1; i++) { array_[i] = array_[i + 1]; }`.
Each iteration copies slot `i + 1` into slot `i`.  The body preserves
the array's length (the node's size is unchanged until the final
`IncreaseSize(-1)`), so the loop runs exactly `size - 1 - index`
iterations — none at all when `index ≥ size - 1`.  A write to a
negative slot index lands outside the array and is invisible in the
slot list. -/
def removeShiftAux (arr : List (Int × Int)) (i : Int) : Nat → List (Int × Int)
  | 0 => arr
  | n + 1 =>
      removeShiftAux
        (if 0 ≤ i then arr.set i.toNat (arr.getD (i.toNat + 1) (0, 0)) else arr)
        (i + 1) n

/-- `BPlusTreeInternalPage::Remove` over a slot list `arr`: the
(unsatisfiable) bounds guard, then the shift loop, then the
unconditional `IncreaseSize(-1)`, rendered as truncating the slot list
to its first `size - 1` entries.  The truncation happens also when
`index` is out of range: the shift loop then does nothing, but the
size still shrinks, silently dropping the last live entry. -/
def pageRemove (arr : List (Int × Int)) (index : Int) :
    Except String (List (Int × Int)) :=
  if indexGuard index arr.length then
    .error "OUT_OF_RANGE"
  else
    .ok ((removeShiftAux arr index
      (((arr.length : Int) - 1 - index).toNat)).take (arr.length - 1))

/-! ## Internal-node key search (BPlusTreeInternalPage::Lookup)

The key array of an internal node is embedded as a bare list of keys
(slot 0 holds the unused dummy key).  `Lookup`'s binary-search loop uses
C++ `int` variables `low`, `high`, `mid` that can in principle step past
each other through `-1`, so the loop counters are embedded as `Int`; all
divisions happen on non-negative values, where Lean's integer division
agrees with C++'s. -/

/-- `KeyAt(i)` over a bare key list (out-of-range slots give 0; all
verified uses are in range). -/
def keyAtL (ks : List Int) (i : Nat) : Int := ks.getD i 0

/-- `KeyAt` with a C++ `int` slot index. -/
def keyAtI (ks : List Int) (i : Int) : Int := keyAtL ks i.toNat

/-- The `while (low <= high)` binary-search loop of
`BPlusTreeInternalPage::Lookup`: return `mid` on an exact key match,
move `low` up when the key is greater, `high` down when it is smaller,
and return `high` when the loop exits. -/
def bsearchL (ks : List Int) (k : Int) (low high : Int) : Int :=
  if _h : low ≤ high then
    if k = keyAtI ks ((low + high) / 2) then (low + high) / 2
    else if keyAtI ks ((low + high) / 2) < k then
      bsearchL ks k ((low + high) / 2 + 1) high
    else
      bsearchL ks k low ((low + high) / 2 - 1)
  else high
termination_by (high + 1 - low).toNat
decreasing_by all_goals omega

/-- The slot chosen by `BPlusTreeInternalPage::Lookup`: `0` when the key
is below the first real key, `size - 1` when it is at least the last
key, and otherwise the result of the binary search over slots
`1 .. size - 1`. -/
def lookupSlot (ks : List Int) (k : Int) : Nat :=
  if k < keyAtL ks 1 then 0
  else if keyAtL ks (ks.length - 1) ≤ k then ks.length - 1
  else (bsearchL ks k 1 ((ks.length : Int) - 1)).toNat

/-- An internal node page, as `BPlusTreeInternalPage::Lookup` sees it:
the slot array of (key, child page id) pairs.  Slot 0's key is the
dummy. -/
structure InternalNode where
  arr : List (Int × Int)
  deriving Repr, DecidableEq

namespace InternalNode

/-- `GetSize()`. -/
def size (n : InternalNode) : Nat := n.arr.length

/-- `KeyAt(i)`: `array_[i].first`. -/
def keyAt (n : InternalNode) (i : Nat) : Int := keyAtL (n.arr.map Prod.fst) i

/-- `ValueAt(i)`: `array_[i].second`, the child page id. -/
def valueAt (n : InternalNode) (i : Nat) : Int := (n.arr.getD i (0, 0)).2

/-- `BPlusTreeInternalPage::Lookup`: the child page id at the slot the
guarded binary search chooses. -/
def Lookup (n : InternalNode) (k : Int) : Int :=
  n.valueAt (lookupSlot (n.arr.map Prod.fst) k)

end InternalNode

/-! ## Latch-crabbing safety predicate (BPlusTree::IsSafe) -/

/-- The `Operation` tag of the descent. -/
inductive Operation where
  | FIND
  | INSERT
  | DELETE
  deriving Repr, DecidableEq

/-- The node attributes `IsSafe` inspects: `IsRootPage()` (parent id is
invalid), `IsLeafPage()`, `GetSize()`, `GetMaxSize()`, `GetMinSize()`. -/
structure NodeView where
  isRoot : Bool
  isLeaf : Bool
  size : Int
  maxSize : Int
  minSize : Int
  deriving Repr, DecidableEq

/-- `BPlusTree::IsSafe`, exactly as in the source: for a root node, safe
iff (`INSERT` and `size < max_size`) or (`DELETE` and `size > 0`); for a
non-root node, safe for `INSERT` iff `size < max_size`, safe for
`DELETE` iff `size > min_size`, and safe for any other operation. -/
def isSafe (n : NodeView) (op : Operation) : Bool :=
  if n.isRoot then
    (op == .INSERT && n.size < n.maxSize) || (op == .DELETE && n.size > 0)
  else if op == .INSERT then
    n.size < n.maxSize
  else if op == .DELETE then
    n.size > n.minSize
  else
    true

/-- The safety predicate in the words of the specification claim: a
non-root node is safe for `INSERT` iff `size < max_size` and for
`DELETE` iff `size > min_size`; the root is safe for `INSERT` iff
`size < max_size` and for `DELETE` iff `size > 1` when it is an internal
node and `size > 0` when it is a leaf. -/
def claimSafe (n : NodeView) (op : Operation) : Bool :=
  match op with
  | .INSERT => n.size < n.maxSize
  | .DELETE =>
    if n.isRoot then
      if n.isLeaf then n.size > 0 else n.size > 1
    else
      n.size > n.minSize
  | .FIND => true

/-- The safety predicate amended to what the source computes for the
root `DELETE` case: the root is safe for `DELETE` iff `size > 0`,
regardless of whether it is a leaf or an internal node. -/
def claimSafeAmended (n : NodeView) (op : Operation) : Bool :=
  match op with
  | .INSERT => n.size < n.maxSize
  | .DELETE =>
    if n.isRoot then n.size > 0 else n.size > n.minSize
  | .FIND => true

/-! ## Index iterator (src/storage/index/index_iterator.cpp) -/

/-- The part of a leaf page the iterator reads: the slot array (keys and
RID values), and `next_page_id_`. -/
structure LeafView where
  entries : List (Int × Nat)
  nextPageId : Int
  deriving Repr, DecidableEq

/-- `IndexIterator` state: the buffer pool is embedded as a total map
from page id to leaf contents (`FetchPage` of a leaf page and the
`reinterpret_cast` to a leaf view); `page_`/`leaf_` are represented by
the current page id, and `index_` is the slot cursor. -/
structure IndexIterator where
  pages : Int → LeafView
  pid : Int
  index : Nat

/-- The leaf currently held by the iterator. -/
def IndexIterator.leaf (it : IndexIterator) : LeafView := it.pages it.pid

/-- `IndexIterator::IsEnd`: the held leaf has no next page and the
cursor equals the leaf's size. -/
def IndexIterator.IsEnd (it : IndexIterator) : Bool :=
  it.leaf.nextPageId == -1 && it.index == it.leaf.entries.length

/-- `IndexIterator::operator++`: increment `index_`; if it now equals
the leaf's size and the leaf has a valid next page, fetch and move to
the next leaf, resetting `index_` to 0. -/
def IndexIterator.inc (it : IndexIterator) : IndexIterator :=
  let index' := it.index + 1
  if index' == it.leaf.entries.length && it.leaf.nextPageId != -1 then
    { it with pid := it.leaf.nextPageId, index := 0 }
  else
    { it with index := index' }

/-! ## Buffer pool manager (src/buffer/buffer_pool_manager.cpp)

The disk manager is embedded as a key-value store `List (Int × Int)`
(page id → page data, data abstracted to one `Int`) plus a trace of the
calls the pool issues to it, so that "the pool notifies the disk manager"
is an observable fact about a run. -/

/-- A call issued to the disk manager. -/
inductive DiskOp where
  | write (pid : Int) (data : Int)
  | read (pid : Int)
  | dealloc (pid : Int)
  deriving Repr, DecidableEq

/-- Whether a disk-manager call is a `DeallocatePage` notification. -/
def DiskOp.isDealloc : DiskOp → Bool
  | .dealloc _ => true
  | _ => false

/-- One frame of the pool: `page_id_`, `pin_count_`, `is_dirty_` and the
page bytes (abstracted to one `Int`).  `pin_count_` is an `int` in the
source but never becomes negative (it is only decremented when positive),
so it is embedded as `Nat`. -/
structure PageFrame where
  page_id : Int
  pin_count : Nat
  is_dirty : Bool
  data : Int
  deriving Repr, DecidableEq

/-- A frame holding no page: `page_id_ = INVALID_PAGE_ID`, zero pin
count, clean, zeroed memory.  This is both the initial state of a frame
and the result of `DeletePageImpl`'s metadata reset. -/
def emptyFrame : PageFrame :=
  { page_id := -1, pin_count := 0, is_dirty := false, data := 0 }

/-- `std::unordered_map::find`: the first binding of the key, if any. -/
def ptFind : List (Int × Nat) → Int → Option Nat
  | [], _ => none
  | (p, f) :: rest, q => if p = q then some f else ptFind rest q

/-- `std::unordered_map::operator[]` as used on the *right-hand side* of
an expression: if the key is present return its value and leave the map
unchanged; if it is absent, **default-insert** a zero value for it (this
is exactly what C++ does) and return that zero. -/
def ptBracket (pt : List (Int × Nat)) (q : Int) : Nat × List (Int × Nat) :=
  match ptFind pt q with
  | some f => (f, pt)
  | none => (0, pt ++ [(q, 0)])

/-- `page_table_[p] = f`: update the binding in place, or append it. -/
def ptAssign : List (Int × Nat) → Int → Nat → List (Int × Nat)
  | [], q, g => [(q, g)]
  | (p, f) :: rest, q, g =>
    if p = q then (p, g) :: rest else (p, f) :: ptAssign rest q g

/-- `std::unordered_map::erase` by key. -/
def ptErase (pt : List (Int × Nat)) (q : Int) : List (Int × Nat) :=
  pt.filter (fun pr => pr.1 != q)

/-- `DiskManager::WritePage` effect on the disk store. -/
def diskWrite : List (Int × Int) → Int → Int → List (Int × Int)
  | [], q, v => [(q, v)]
  | (p, w) :: rest, q, v =>
    if p = q then (p, v) :: rest else (p, w) :: diskWrite rest q v

/-- `DiskManager::ReadPage`: the stored data, or zero for a page never
written. -/
def diskRead : List (Int × Int) → Int → Int
  | [], _ => 0
  | (p, w) :: rest, q => if p = q then w else diskRead rest q

/-- State of `BufferPoolManager`: the frame array, the page table, the
free list, the replacer, the page-id allocation counter
`cur_max_page_id_`, the disk store and the trace of disk-manager calls. -/
structure BufferPoolManager where
  pool_size : Nat
  pages : List PageFrame
  page_table : List (Int × Nat)
  free_list : List Nat
  replacer : LRUReplacer
  cur_max_page_id : Int
  disk : List (Int × Int)
  trace : List DiskOp
  deriving Repr, DecidableEq

namespace BufferPoolManager

/-- `pages_[frame_id]` (reads of a frame are always in range in the
source; out-of-range reads default to an empty frame). -/
def getFrame (s : BufferPoolManager) (frame_id : Nat) : PageFrame :=
  s.pages.getD frame_id emptyFrame

/-- Overwrite `pages_[frame_id]`. -/
def setFrame (s : BufferPoolManager) (frame_id : Nat) (pg : PageFrame) :
    BufferPoolManager :=
  { s with pages := s.pages.set frame_id pg }

/-- The pool constructor: every frame empty and in the free list, empty
page table, a replacer with capacity `pool_size`. -/
def init (pool_size : Nat) : BufferPoolManager :=
  { pool_size := pool_size
    pages := List.replicate pool_size emptyFrame
    page_table := []
    free_list := List.range pool_size
    replacer := { max_size := pool_size, lru_list := [] }
    cur_max_page_id := 0
    disk := []
    trace := [] }

/-- The host-frame selection shared by `FetchPageImpl` and
`NewPageImpl`: prefer the free list; otherwise ask the replacer for a
victim, write the victim's page out if dirty and drop it from the page
table; fail if both are empty. -/
def hostFrame (s : BufferPoolManager) : Option (Nat × BufferPoolManager) :=
  match s.free_list with
  | frame_id :: rest => some (frame_id, { s with free_list := rest })
  | [] =>
    match s.replacer.Victim with
    | (some frame_id, r) =>
      let s := { s with replacer := r }
      let page := s.getFrame frame_id
      let s :=
        if page.is_dirty then
          { s with disk := diskWrite s.disk page.page_id page.data,
                   trace := s.trace ++ [DiskOp.write page.page_id page.data] }
        else s
      some (frame_id, { s with page_table := ptErase s.page_table page.page_id })
    | (none, _) => none

/-- `BufferPoolManager::FetchPageImpl`: on a hit, pin the frame and
return it; on a miss, find a host frame, read the page from disk into
it, set `pin_count = 1`, record it in the page table, pin it in the
replacer. -/
def FetchPage (s : BufferPoolManager) (page_id : Int) :
    Option Nat × BufferPoolManager :=
  match ptFind s.page_table page_id with
  | some frame_id =>
    let page := s.getFrame frame_id
    let s := s.setFrame frame_id { page with pin_count := page.pin_count + 1 }
    let s := { s with replacer := s.replacer.Pin frame_id }
    (some frame_id, s)
  | none =>
    match s.hostFrame with
    | none => (none, s)
    | some (frame_id, s) =>
      let s := s.setFrame frame_id
        { page_id := page_id, pin_count := 1, is_dirty := false,
          data := diskRead s.disk page_id }
      let s := { s with trace := s.trace ++ [DiskOp.read page_id] }
      let s := { s with page_table := ptAssign s.page_table page_id frame_id }
      let s := { s with replacer := s.replacer.Pin frame_id }
      (some frame_id, s)

/-- `BufferPoolManager::UnpinPageImpl`: fail if the page is not mapped
or not pinned; otherwise decrement the pin count, set the dirty bit if
requested (never clear it), and hand the frame to the replacer when the
pin count reaches zero. -/
def UnpinPage (s : BufferPoolManager) (page_id : Int) (is_dirty : Bool) :
    Bool × BufferPoolManager :=
  match ptFind s.page_table page_id with
  | none => (false, s)
  | some frame_id =>
    let page := s.getFrame frame_id
    if page.pin_count = 0 then (false, s)
    else
      let page := { page with pin_count := page.pin_count - 1 }
      let page := if is_dirty then { page with is_dirty := true } else page
      let s := s.setFrame frame_id page
      let s :=
        if page.pin_count = 0 then
          { s with replacer := s.replacer.Unpin frame_id }
        else s
      (true, s)

/-- `BufferPoolManager::FlushPageImpl`, exactly as written in the
source: after rejecting `INVALID_PAGE_ID`, the frame is looked up with
`page_table_[page_id]` — the default-inserting `operator[]` — *before*
the `find` existence check, so the check can never fail and an unmapped
`page_id` acquires a spurious page-table entry bound to frame 0. -/
def FlushPage (s : BufferPoolManager) (page_id : Int) :
    Bool × BufferPoolManager :=
  if page_id = -1 then (false, s)
  else
    let (frame_id, pt) := ptBracket s.page_table page_id
    let s := { s with page_table := pt }
    if (ptFind s.page_table page_id).isNone then (false, s)
    else
      let page := s.getFrame frame_id
      let s := { s with disk := diskWrite s.disk page.page_id page.data,
                        trace := s.trace ++ [DiskOp.write page.page_id page.data] }
      let s := s.setFrame frame_id { page with is_dirty := false }
      (true, s)

/-- `BufferPoolManager::NewPageImpl`: find a host frame, allocate a
fresh page id from `cur_max_page_id_++`, zero the frame, set
`pin_count = 1`, record and pin.  Returns the new page id and frame. -/
def NewPage (s : BufferPoolManager) :
    Option (Int × Nat) × BufferPoolManager :=
  match s.hostFrame with
  | none => (none, s)
  | some (frame_id, s) =>
    let pid := s.cur_max_page_id
    let s := { s with cur_max_page_id := s.cur_max_page_id + 1 }
    let s := s.setFrame frame_id
      { page_id := pid, pin_count := 1, is_dirty := false, data := 0 }
    let s := { s with page_table := ptAssign s.page_table pid frame_id }
    let s := { s with replacer := s.replacer.Pin frame_id }
    (some (pid, frame_id), s)

/-- `BufferPoolManager::DeletePageImpl`: vacuous success on an unmapped
page; failure on a pinned page; otherwise write out if dirty, drop the
page-table entry, reset the frame metadata, return the frame to the
free list and remove it from the replacer.  The source's call to
`DiskManager::DeallocatePage` is commented out, so no deallocate
notification is ever traced. -/
def DeletePage (s : BufferPoolManager) (page_id : Int) :
    Bool × BufferPoolManager :=
  match ptFind s.page_table page_id with
  | none => (true, s)
  | some frame_id =>
    let page := s.getFrame frame_id
    if page.pin_count ≠ 0 then (false, s)
    else
      let s :=
        if page.is_dirty then
          { s with disk := diskWrite s.disk page.page_id page.data,
                   trace := s.trace ++ [DiskOp.write page.page_id page.data] }
        else s
      let s := { s with page_table := ptErase s.page_table page_id }
      let s := s.setFrame frame_id emptyFrame
      let s := { s with free_list := s.free_list ++ [frame_id] }
      let s := { s with replacer := s.replacer.Pin frame_id }
      (true, s)

/-- One step of `BufferPoolManager::FlushAllPagesImpl`: write the frame
of one page-table entry through the disk manager and clear its dirty
bit. -/
def flushEntry (s : BufferPoolManager) (pr : Int × Nat) :
    BufferPoolManager :=
  let page := s.getFrame pr.2
  let s := { s with disk := diskWrite s.disk page.page_id page.data,
                    trace := s.trace ++ [DiskOp.write page.page_id page.data] }
  s.setFrame pr.2 { page with is_dirty := false }

/-- `BufferPoolManager::FlushAllPagesImpl`: flush every page-table
entry. -/
def FlushAll (s : BufferPoolManager) : BufferPoolManager :=
  s.page_table.foldl flushEntry s

/-- The page-table half of the residency invariant claimed by the
specification: every entry `(p, f)` of `page_table` satisfies
`frames[f].page_id == p` (with `f` a real frame index). -/
def pageTableInv (s : BufferPoolManager) : Bool :=
  s.page_table.all
    (fun pr => pr.2 < s.pages.length && (s.getFrame pr.2).page_id == pr.1)

end BufferPoolManager

/-! ## B+ tree insert algorithm (src/index/b_plus_tree.cpp)

Functional model of the tree reachable from `root_page_id_`.  The page
indirection (child page ids resolved through the buffer pool) is
embedded as direct substructure: an internal node's slot array pairs
each slot key with the child *subtree* its page id denotes.  Slot 0's
key is the unused dummy.  The descent (`FindLeafPageByOperation` +
`InternalPage::Lookup`), the in-place leaf insertion, and the
bottom-up split propagation (`InsertIntoLeaf` → `Split` →
`InsertIntoParent`) become one structural recursion that returns either
the rebuilt subtree or the two halves plus the separator pushed up, the
same data the source threads through `InsertIntoParent`.

The leaf page operations (`b_plus_tree_leaf_page.cpp` is not part of
the source tree; only its callers are) are modelled from the spec where
noted. -/

/-- Insert `p` at position `m` of a list (elements from `m` on shift
right by one).  This is the shape of `InsertNodeAfter`'s shift loop:
the source locates the slot of `old_value` by scanning; here the caller
passes that slot, which the descent already knows. -/
def insertAt (l : List α) (m : Nat) (p : α) : List α :=
  l.take m ++ p :: l.drop m

/-- Modelled from the spec: `BPlusTreeLeafPage::Lookup(key, &value)`
(the leaf page source file is absent) — find the value stored under a
key. -/
def leafLookup : List (Int × Nat) → Int → Option Nat
  | [], _ => none
  | (k', v') :: rest, k => if k = k' then some v' else leafLookup rest k

/-- Modelled from the spec: `BPlusTreeLeafPage::Insert(key, value)`
(the leaf page source file is absent) — insert at the key-ordered slot,
rejecting a duplicate key (the slot array is left unchanged). -/
def leafInsert : List (Int × Nat) → Int → Nat → List (Int × Nat)
  | [], k, v => [(k, v)]
  | (k', v') :: rest, k, v =>
    if k < k' then (k, v) :: (k', v') :: rest
    else if k = k' then (k', v') :: rest
    else (k', v') :: leafInsert rest k v

/-- Modelled from the spec (§3): `GetMinSize()` of an internal node is
`⌈(I+1)/2⌉` (the page header source file is absent);
`InternalPage::MoveHalfTo` keeps `max(GetMinSize(), 2)` slots and moves
the rest. -/
def internalMinSize (I : Nat) : Nat := (I + 2) / 2

/-- A node of the B+ tree: a leaf's (key, RID) slot array, or an
internal node's (key, child) slot array with slot 0's key the dummy. -/
inductive BTree where
  | leaf (es : List (Int × Nat))
  | node (cs : List (Int × BTree))

/-- The outcome `InsertIntoLeaf`/`InsertIntoParent` propagate upward:
duplicate key (return `false`), the subtree rebuilt in place, or a
split into two halves with the separator key for the parent. -/
inductive InsertResult where
  | dup
  | one (t : BTree)
  | split (l : BTree) (sep : Int) (r : BTree)

/-- The slot keys of an internal node. -/
def nodeKeys (cs : List (Int × BTree)) : List Int := cs.map Prod.fst

/-- The child subtree at slot `j` (`ValueAt(j)` resolved through the
pool). -/
def childAt (cs : List (Int × BTree)) (j : Nat) : BTree :=
  (cs.getD j (0, .leaf [])).2

mutual

/-- `BPlusTree::GetValue`: descend by `InternalPage::Lookup` to the
leaf, then the leaf's lookup. -/
def getValueAux (k : Int) : BTree → Option Nat
  | .leaf es => leafLookup es k
  | .node cs => getChild k cs (lookupSlot (nodeKeys cs) k)

/-- Resolve the descent's child page reference: the recursion of
`getValueAux` at the subtree in slot `j`. -/
def getChild (k : Int) : List (Int × BTree) → Nat → Option Nat
  | [], _ => none
  | c :: _, 0 => getValueAux k c.2
  | _ :: rest, n + 1 => getChild k rest n

end

mutual

/-- `BPlusTree::InsertIntoLeaf` and the split propagation of
`InsertIntoParent`, as one recursion over the descent path.  At the
leaf: reject a duplicate (`Lookup` succeeds), insert, and split only
when the new size exceeds `max_size` (`new_size <= GetMaxSize()` stays
in place), moving the upper half to the new sibling.  At an internal
node: recurse into the `Lookup` child; on a child split, place the
separator and new child right after the child's slot
(`InsertNodeAfter`) and split in turn when the node now exceeds
`max_size`, with `InternalPage::MoveHalfTo` keeping
`max(GetMinSize(), 2)` slots; the new sibling's slot-0 key
(`new_parent->KeyAt(0)`) is the separator pushed up. -/
def insertRec (L I : Nat) (k : Int) (v : Nat) : BTree → InsertResult
  | .leaf es =>
    if (leafLookup es k).isSome then .dup
    else
      let es' := leafInsert es k v
      if es'.length ≤ L then .one (.leaf es')
      else
        .split (.leaf (es'.take ((es'.length + 1) / 2)))
          (keyAtL (es'.map Prod.fst) ((es'.length + 1) / 2))
          (.leaf (es'.drop ((es'.length + 1) / 2)))
  | .node cs =>
    let j := lookupSlot (nodeKeys cs) k
    match insertChild L I k v cs j with
    | .dup => .dup
    | .one t' => .one (.node (cs.set j (keyAtL (nodeKeys cs) j, t')))
    | .split l sep r =>
      let cs' := insertAt (cs.set j (keyAtL (nodeKeys cs) j, l)) (j + 1) (sep, r)
      if cs'.length ≤ I then .one (.node cs')
      else
        .split (.node (cs'.take (max (internalMinSize I) 2)))
          (keyAtL (nodeKeys cs') (max (internalMinSize I) 2))
          (.node (cs'.drop (max (internalMinSize I) 2)))

/-- Resolve the descent's child page reference: the recursion of
`insertRec` at the subtree in slot `j`. -/
def insertChild (L I : Nat) (k : Int) (v : Nat) :
    List (Int × BTree) → Nat → InsertResult
  | [], _ => .one (.leaf [])
  | c :: _, 0 => insertRec L I k v c.2
  | _ :: rest, n + 1 => insertChild L I k v rest n

end

/-- `BPlusTree::Insert`: an empty tree starts a new root leaf
(`StartNewTree`); otherwise `InsertIntoLeaf` runs, and a split that
reaches the root allocates a new internal root holding the two halves
(`PopulateNewRoot` gives `size = 2`, slot 0's key a dummy). -/
def treeInsert (L I : Nat) (root : Option BTree) (k : Int) (v : Nat) :
    Bool × Option BTree :=
  match root with
  | none => (true, some (.leaf [(k, v)]))
  | some t =>
    match insertRec L I k v t with
    | .dup => (false, some t)
    | .one t' => (true, some t')
    | .split l sep r => (true, some (.node [(0, l), (sep, r)]))

/-- `BPlusTree::GetValue` from the root (`none` is the empty tree,
`root_page_id_ == INVALID_PAGE_ID`). -/
def treeGetValue (root : Option BTree) (k : Int) : Option Nat :=
  match root with
  | none => none
  | some t => getValueAux k t

/-- Observation: is the root a leaf page? -/
def rootIsLeaf : Option BTree → Bool
  | some (.leaf _) => true
  | _ => false

/-- Observation: the slot array of a root leaf (empty otherwise). -/
def rootLeafEntries : Option BTree → List (Int × Nat)
  | some (.leaf es) => es
  | _ => []

/-! ### Well-formedness of a subtree

`WF L I lo hi t`: every leaf holds at most `L` entries with strictly
increasing keys in the half-open window `[lo, hi)`; every internal node
has between 2 and `I` slots, its real keys (slots `1..size-1`) strictly
increasing and strictly inside `(lo, hi)`, and each child well-formed
in the window its neighbouring keys delimit.  These are the tree
invariants of spec §3/§8 restricted to what insertion maintains (no
minimum-fill constraint, which the root is exempt from anyway). -/

/-- `lo ≤ k` against an optional lower window bound. -/
def loLE : Option Int → Int → Prop
  | none, _ => True
  | some a, k => a ≤ k

/-- `lo < k` against an optional lower window bound. -/
def loLT : Option Int → Int → Prop
  | none, _ => True
  | some a, k => a < k

/-- `k < hi` against an optional upper window bound. -/
def ltHi : Int → Option Int → Prop
  | _, none => True
  | k, some b => k < b

/-- The lower window bound of the child in slot `j`: the slot's own key
(the parent's window's lower bound for the leftmost child). -/
def childLo (lo : Option Int) (ks : List Int) (j : Nat) : Option Int :=
  if j = 0 then lo else some (keyAtL ks j)

/-- The upper window bound of the child in slot `j`: the next slot's
key (the parent's window's upper bound for the rightmost child). -/
def childHi (hi : Option Int) (ks : List Int) (j : Nat) : Option Int :=
  if j + 1 = ks.length then hi else some (keyAtL ks (j + 1))

/-- Well-formedness of a subtree within a key window. -/
inductive WF (L I : Nat) : Option Int → Option Int → BTree → Prop where
  | leaf : ∀ (lo hi : Option Int) (es : List (Int × Nat)),
      es.length ≤ L →
      (es.map Prod.fst).Pairwise (· < ·) →
      (∀ e ∈ es, loLE lo e.1 ∧ ltHi e.1 hi) →
      WF L I lo hi (.leaf es)
  | node : ∀ (lo hi : Option Int) (cs : List (Int × BTree)),
      2 ≤ cs.length →
      cs.length ≤ I →
      ((nodeKeys cs).drop 1).Pairwise (· < ·) →
      (∀ x ∈ (nodeKeys cs).drop 1, loLT lo x ∧ ltHi x hi) →
      (∀ j, j < cs.length →
        WF L I (childLo lo (nodeKeys cs) j) (childHi hi (nodeKeys cs) j)
          (childAt cs j)) →
      WF L I lo hi (.node cs)

/-- Well-formedness of the whole tree (no window constraint at the
root; an absent root is the empty tree). -/
def WFRoot (L I : Nat) : Option BTree → Prop
  | none => True
  | some t => WF L I none none t

/-- What a correct insertion step guarantees within a window `[lo, hi)`
containing the fresh key `k`: a rebuilt subtree is well-formed and
contains `k ↦ v`; a split yields two well-formed halves around a
separator strictly inside the window, with `k ↦ v` in the half its
comparison against the separator selects. -/
def insOutcome (L I : Nat) (k : Int) (v : Nat) (lo hi : Option Int) :
    InsertResult → Prop
  | .dup => True
  | .one t' => WF L I lo hi t' ∧ getValueAux k t' = some v
  | .split l sep r =>
      loLT lo sep ∧ ltHi sep hi ∧ WF L I lo (some sep) l ∧
      WF L I (some sep) hi r ∧
      (k < sep → getValueAux k l = some v) ∧
      (sep ≤ k → getValueAux k r = some v)

end Bustub

namespace Bustub

/-! ## Claim theorems: C3, C8, C9, C10 -/

/-- C3 counterexample: on an internal root node of size 1 the source's
`IsSafe` declares a `DELETE` descent safe, while the claimed predicate
(root safe for `DELETE` iff `size > 1` for an internal root) declares it
unsafe.  So the claim as stated is false of the code. -/
theorem isSafe_ne_claimSafe_on_internal_root :
    let n : NodeView :=
      { isRoot := true, isLeaf := false, size := 1, maxSize := 4, minSize := 2 }
    isSafe n .DELETE = true ∧ claimSafe n .DELETE = false := by
  decide

/-- C3 (amended): the descent safety predicate equals the specified one
for every node and every `INSERT`/`DELETE` operation, once the root
`DELETE` case is amended to `size > 0` for both leaf and internal
roots. -/
theorem isSafe_eq_claimSafeAmended (n : NodeView) :
    isSafe n .INSERT = claimSafeAmended n .INSERT ∧
      isSafe n .DELETE = claimSafeAmended n .DELETE := by
  by_cases h : n.isRoot <;>
    constructor <;>
    simp [isSafe, claimSafeAmended, h]

/-- C8: the LRU replacer contract.  `Unpin` is a no-op on an already
tracked frame and on a replacer at (or beyond) its configured capacity,
and otherwise inserts the frame as the most recently unpinned; `Victim`
on an empty replacer returns nothing, and otherwise returns and removes
the least recently unpinned (back-most) tracked frame. -/
theorem lru_replacer_contract (r : LRUReplacer) (f : Nat) :
    (f ∈ r.lru_list → r.Unpin f = r) ∧
    (r.max_size ≤ r.lru_list.length → r.Unpin f = r) ∧
    (f ∉ r.lru_list → r.lru_list.length < r.max_size →
      (r.Unpin f).lru_list = f :: r.lru_list) ∧
    (r.lru_list = [] → r.Victim = (none, r)) ∧
    (∀ h : r.lru_list ≠ [],
      (r.Victim).1 = some (r.lru_list.getLast h) ∧
      (r.Victim).2.lru_list = r.lru_list.dropLast) := by
  refine ⟨?_, ?_, ?_, ?_, ?_⟩
  · intro h
    simp [LRUReplacer.Unpin, h]
  · intro h
    by_cases hmem : f ∈ r.lru_list <;> simp [LRUReplacer.Unpin, hmem, h]
  · intro hmem hlen
    simp [LRUReplacer.Unpin, hmem, Nat.not_le.mpr hlen]
  · intro h
    simp [LRUReplacer.Victim, h]
  · intro h
    have hne : ¬ r.lru_list.isEmpty := by
      simpa [List.isEmpty_iff] using h
    refine ⟨?_, ?_⟩
    · simp [LRUReplacer.Victim, hne, List.getLast?_eq_getLast _ h]
    · simp [LRUReplacer.Victim, hne]

/-- C8 witness: the contract applied to the concrete replacer tracking
`[3, 5]` with capacity 2 and frame 7. -/
theorem lru_replacer_contract_witness :
    (7 ∉ [3, 5] ∧ [3, 5].length < 4) ∧
      ((LRUReplacer.mk 4 [3, 5]).Unpin 7).lru_list = 7 :: [3, 5] := by
  refine ⟨by decide, ?_⟩
  exact (lru_replacer_contract (LRUReplacer.mk 4 [3, 5]) 7).2.2.1
    (by decide) (by decide)

/-- C9: the accessor bounds check `index < 0 && index >= size` is
unsatisfiable for every index and every (non-negative) node size, so
`KeyAt`, `SetKeyAt`, `ValueAt` and `Remove` never raise the
out-of-range error demanded by the claim; in particular on a node of
size 2 the invalid indices 5 and -1 are accepted silently, and
`Remove(5)` — its shift loop vacuous but its `IncreaseSize(-1)`
unconditional — silently truncates the node to its first entry
instead of raising. -/
theorem accessors_never_raise :
    (∀ (index : Int) (size : Nat), indexGuard index size = false) ∧
    pageKeyAt [(1, 10), (2, 20)] 5 = .ok none ∧
    pageKeyAt [(1, 10), (2, 20)] (-1) = .ok none ∧
    pageValueAt [(1, 10), (2, 20)] 5 = .ok none ∧
    pageSetKeyAt [(1, 10), (2, 20)] 5 9 = .ok [(1, 10), (2, 20)] ∧
    pageRemove [(1, 10), (2, 20)] 5 = .ok [(1, 10)] := by
  refine ⟨?_, by rfl, by rfl, by rfl, by rfl, by rfl⟩
  intro index size
  simp only [indexGuard, Bool.and_eq_false_iff, decide_eq_false_iff_not,
    not_lt, ge_iff_le]
  omega

/-- C10: `is_end` is not absorbing under `++`.  For every iterator
positioned at the end of the index (`next_page_id` invalid and the
cursor at the leaf's size), `operator++` moves the cursor past the
leaf's size and `IsEnd` no longer holds. -/
theorem isEnd_not_absorbing (it : IndexIterator) (h : it.IsEnd = true) :
    (it.inc).IsEnd = false ∧ (it.inc).index = it.leaf.entries.length + 1 := by
  have hnext : it.leaf.nextPageId = -1 := by
    simp [IndexIterator.IsEnd, Bool.and_eq_true] at h
    exact h.1
  have hidx : it.index = it.leaf.entries.length := by
    simp [IndexIterator.IsEnd, Bool.and_eq_true] at h
    exact h.2
  have hinc : it.inc = { it with index := it.index + 1 } := by
    simp [IndexIterator.inc, hnext]
  constructor
  · simp [hinc, IndexIterator.IsEnd, IndexIterator.leaf, hidx]
  · simp [hinc, hidx]

/-! ## Claim theorems: C1, C2, C6 (buffer pool) -/

/-- Reading a frame index past the frame array gives the default empty
frame. -/
theorem BufferPoolManager.getFrame_of_ge (s : BufferPoolManager) (f : Nat)
    (h : s.pages.length ≤ f) : s.getFrame f = emptyFrame := by
  simp [BufferPoolManager.getFrame, List.getD_eq_getElem?_getD,
    List.getElem?_eq_none h]

/-- Writing a frame and reading it back gives the written frame. -/
theorem BufferPoolManager.getFrame_setFrame_self (s : BufferPoolManager)
    (f : Nat) (pg : PageFrame) (h : f < s.pages.length) :
    (s.setFrame f pg).getFrame f = pg := by
  simp [BufferPoolManager.getFrame, BufferPoolManager.setFrame,
    List.getD_eq_getElem?_getD, List.getElem?_set_self', h]

/-- C1: the page-table invariant is violated by the code.  Starting from
the initial pool of size 1 (where the invariant holds), a single
`FlushPageImpl(5)` on the unmapped page id 5 "succeeds" and creates the
spurious page-table entry `(5, 0)`, while frame 0 still holds no page
(`page_id == INVALID`), because `page_table_[page_id]` default-inserts
the entry before the existence check (which is therefore dead code). -/
theorem flushPage_breaks_page_table_invariant :
    BufferPoolManager.pageTableInv (BufferPoolManager.init 1) = true ∧
    (BufferPoolManager.FlushPage (BufferPoolManager.init 1) 5).1 = true ∧
    (BufferPoolManager.FlushPage (BufferPoolManager.init 1) 5).2.page_table
      = [(5, 0)] ∧
    ((BufferPoolManager.FlushPage (BufferPoolManager.init 1) 5).2.getFrame 0).page_id
      = -1 ∧
    BufferPoolManager.pageTableInv
      (BufferPoolManager.FlushPage (BufferPoolManager.init 1) 5).2 = false := by
  decide

/-- C2: `DeletePageImpl` never notifies the disk manager to deallocate.
On the concrete run `init 1 → NewPage → Unpin(0, dirty) → DeletePage(0)`:
deleting while pinned fails and leaves the pool unchanged; after the
unpin, deleting succeeds, writes the dirty page out, removes the
page-table entry, resets the frame, returns it to the free list and does
not leave it in the replacer — but the trace contains a write and no
deallocate call, because `DeallocatePage(page_id)` is commented out in
the source. -/
theorem deletePage_never_deallocates :
    (BufferPoolManager.NewPage (BufferPoolManager.init 1)).1 = some (0, 0) ∧
    (let s1 := (BufferPoolManager.NewPage (BufferPoolManager.init 1)).2
     BufferPoolManager.DeletePage s1 0 = (false, s1)) ∧
    (let s1 := (BufferPoolManager.NewPage (BufferPoolManager.init 1)).2
     let s2 := (BufferPoolManager.UnpinPage s1 0 true).2
     let r := BufferPoolManager.DeletePage s2 0
     r.1 = true ∧
     r.2.page_table = [] ∧
     r.2.free_list = [0] ∧
     r.2.replacer.lru_list = [] ∧
     r.2.getFrame 0 = emptyFrame ∧
     r.2.trace = [DiskOp.write 0 0] ∧
     r.2.trace.any DiskOp.isDealloc = false) := by
  decide

/-- C6: the `UnpinPageImpl` contract.  Unpin fails exactly when the page
is unmapped or its pin count is zero, and then the pool is unchanged; on
success the pin count is decremented, the dirty request is ORed into the
sticky dirty bit (a `false` request never clears it), the replacer is
untouched while the pin count stays positive, and the frame is handed to
the replacer — hence tracked by it, when it has room and did not already
track the frame — exactly when the pin count reaches zero. -/
theorem unpinPage_contract (s : BufferPoolManager) (page_id : Int)
    (d : Bool) :
    (ptFind s.page_table page_id = none →
      s.UnpinPage page_id d = (false, s)) ∧
    (∀ f, ptFind s.page_table page_id = some f →
      ((s.getFrame f).pin_count = 0 → s.UnpinPage page_id d = (false, s)) ∧
      (0 < (s.getFrame f).pin_count →
        (s.UnpinPage page_id d).1 = true ∧
        ((s.UnpinPage page_id d).2.getFrame f).pin_count
          = (s.getFrame f).pin_count - 1 ∧
        ((s.UnpinPage page_id d).2.getFrame f).is_dirty
          = ((s.getFrame f).is_dirty || d) ∧
        ((s.getFrame f).pin_count - 1 ≠ 0 →
          (s.UnpinPage page_id d).2.replacer = s.replacer) ∧
        ((s.getFrame f).pin_count - 1 = 0 →
          (s.UnpinPage page_id d).2.replacer = s.replacer.Unpin f) ∧
        (f ∉ s.replacer.lru_list →
          s.replacer.lru_list.length < s.replacer.max_size →
          (f ∈ (s.UnpinPage page_id d).2.replacer.lru_list ↔
            (s.getFrame f).pin_count - 1 = 0)))) := by
  constructor
  · intro h
    simp [BufferPoolManager.UnpinPage, h]
  · intro f hf
    constructor
    · intro h0
      simp [BufferPoolManager.UnpinPage, hf, h0]
    · intro hpos
      have hlt : f < s.pages.length := by
        by_contra hge
        rw [s.getFrame_of_ge f (Nat.le_of_not_lt hge)] at hpos
        exact absurd hpos (by simp [emptyFrame])
      have hne : ¬ (s.getFrame f).pin_count = 0 := Nat.pos_iff_ne_zero.mp hpos
      set pg := s.getFrame f with hpg
      set pg1 : PageFrame := { pg with pin_count := pg.pin_count - 1 }
      set pg2 : PageFrame := if d then { pg1 with is_dirty := true } else pg1
      have hpg2pin : pg2.pin_count = pg.pin_count - 1 := by
        by_cases hd : d <;> simp [pg2, pg1, hd]
      have hpg2dirty : pg2.is_dirty = (pg.is_dirty || d) := by
        by_cases hd : d <;> simp [pg2, pg1, hd]
      have hrun : s.UnpinPage page_id d =
          (true,
            if pg2.pin_count = 0 then
              { s.setFrame f pg2 with
                  replacer := (s.setFrame f pg2).replacer.Unpin f }
            else s.setFrame f pg2) := by
        simp only [BufferPoolManager.UnpinPage, hf, ← hpg, hne, if_false]
      have hget : ∀ t : BufferPoolManager,
          t = (s.UnpinPage page_id d).2 →
          t.getFrame f = pg2 := by
        intro t ht
        rw [ht, hrun]
        by_cases hz : pg2.pin_count = 0 <;>
          simp only [hz, if_true, if_false, ite_true, ite_false] <;>
          exact s.getFrame_setFrame_self f pg2 hlt
      have hframe : ((s.UnpinPage page_id d).2).getFrame f = pg2 :=
        hget _ rfl
      have hrepl : (s.UnpinPage page_id d).2.replacer =
          (if pg.pin_count - 1 = 0 then s.replacer.Unpin f else s.replacer) := by
        rw [hrun]
        rw [← hpg2pin]
        by_cases hz : pg2.pin_count = 0 <;>
          simp [hz, BufferPoolManager.setFrame]
      refine ⟨by rw [hrun], by rw [hframe, hpg2pin],
        by rw [hframe, hpg2dirty], ?_, ?_, ?_⟩
      · intro hnz
        rw [hrepl, if_neg hnz]
      · intro hz
        rw [hrepl, if_pos hz]
      · intro hnotin hroom
        rw [hrepl]
        by_cases hz : pg.pin_count - 1 = 0
        · simp only [hz, if_true, ite_true]
          simp [LRUReplacer.Unpin, hnotin, Nat.not_le.mpr hroom]
        · simp only [hz, if_false, ite_false]
          simp [hnotin, hz]

/-- C6 witness: the contract applied to the pool obtained from
`init 1 → NewPage` (page 0 pinned once in frame 0), unpinning page 0
without the dirty flag: the unpin succeeds, drops the pin count to zero
and the frame becomes tracked by the replacer. -/
theorem unpinPage_contract_witness :
    (BufferPoolManager.UnpinPage
      (BufferPoolManager.NewPage (BufferPoolManager.init 1)).2 0 false).1
        = true ∧
    0 ∈ (BufferPoolManager.UnpinPage
      (BufferPoolManager.NewPage (BufferPoolManager.init 1)).2 0 false).2.replacer.lru_list := by
  have h := (unpinPage_contract
    (BufferPoolManager.NewPage (BufferPoolManager.init 1)).2 0 false).2 0
    (by decide)
  have h2 := h.2 (by decide)
  refine ⟨h2.1, ?_⟩
  have h3 := h2.2.2.2.2.2 (by decide) (by decide)
  exact h3.mpr (by decide)

/-! ## Key-search lemmas and C5 -/

/-- In-range `keyAtL` is a plain list read. -/
theorem keyAtL_eq_getElem (ks : List Int) (i : Nat) (h : i < ks.length) :
    keyAtL ks i = ks[i] := by
  simp [keyAtL, List.getD_eq_getElem?_getD, List.getElem?_eq_getElem h]

/-- Strict monotonicity of the real keys (slots `1 .. size - 1`) of a
node whose keys are strictly increasing. -/
theorem keys_lt (ks : List Int) (hs : (ks.drop 1).Pairwise (· < ·))
    {i j : Nat} (h1 : 1 ≤ i) (hij : i < j) (hj : j < ks.length) :
    keyAtL ks i < keyAtL ks j := by
  have hi : i < ks.length := lt_trans hij hj
  rw [keyAtL_eq_getElem ks i hi, keyAtL_eq_getElem ks j hj]
  have hi' : i - 1 < (ks.drop 1).length := by
    simp only [List.length_drop]
    omega
  have hj' : j - 1 < (ks.drop 1).length := by
    simp only [List.length_drop]
    omega
  have h := List.pairwise_iff_getElem.mp hs (i - 1) (j - 1) hi' hj' (by omega)
  have hgi : (ks.drop 1)[i - 1] = ks[i] := by
    rw [List.getElem_drop]
    congr 1
    omega
  have hgj : (ks.drop 1)[j - 1] = ks[j] := by
    rw [List.getElem_drop]
    congr 1
    omega
  rwa [hgi, hgj] at h

/-- Weak monotonicity of the real keys. -/
theorem keys_le (ks : List Int) (hs : (ks.drop 1).Pairwise (· < ·))
    {i j : Nat} (h1 : 1 ≤ i) (hij : i ≤ j) (hj : j < ks.length) :
    keyAtL ks i ≤ keyAtL ks j := by
  rcases Nat.eq_or_lt_of_le hij with h | h
  · rw [h]
  · exact le_of_lt (keys_lt ks hs h1 h hj)

/-- The binary-search loop returns the bracketing slot: if slot `ans`
satisfies `key_at(ans) ≤ k < key_at(ans+1)` and lies in the searched
window, the loop returns `ans`. -/
theorem bsearchL_eq (ks : List Int) (k : Int)
    (hs : (ks.drop 1).Pairwise (· < ·)) (low high : Int) (ans : Nat)
    (hlow1 : 1 ≤ low) (hlh : low ≤ high + 1) (hhi : high < (ks.length : Int))
    (hans1 : low - 1 ≤ (ans : Int)) (hans2 : (ans : Int) ≤ high)
    (hbr1 : keyAtL ks ans ≤ k) (hbr2 : k < keyAtL ks (ans + 1)) :
    bsearchL ks k low high = (ans : Int) := by
  rw [bsearchL]
  by_cases hcond : low ≤ high
  · rw [dif_pos hcond]
    have hmid0 : 0 ≤ (low + high) / 2 := by omega
    have hmidlo : low ≤ (low + high) / 2 := by omega
    have hmidhi : (low + high) / 2 ≤ high := by omega
    have hmInt : ((low + high) / 2) = (((low + high) / 2).toNat : Int) := by
      omega
    set m : Nat := ((low + high) / 2).toNat with hm
    have hm1 : 1 ≤ m := by omega
    have hmlen : m < ks.length := by omega
    have hanslen : ans < ks.length := by omega
    have hkmid : keyAtI ks ((low + high) / 2) = keyAtL ks m := by
      rw [keyAtI, hm]
    by_cases heq : k = keyAtI ks ((low + high) / 2)
    · rw [if_pos heq]
      rw [hkmid] at heq
      have hmans : m = ans := by
        rcases Nat.lt_trichotomy m ans with hlt | heq2 | hgt
        · exfalso
          have hstep : keyAtL ks m < keyAtL ks (m + 1) :=
            keys_lt ks hs hm1 (Nat.lt_succ_self m) (by omega)
          have hmono : keyAtL ks (m + 1) ≤ keyAtL ks ans :=
            keys_le ks hs (by omega) (by omega) hanslen
          omega
        · exact heq2
        · exfalso
          have hmono : keyAtL ks (ans + 1) ≤ keyAtL ks m :=
            keys_le ks hs (by omega) (by omega) hmlen
          omega
      omega
    · rw [if_neg heq]
      by_cases hlt : keyAtI ks ((low + high) / 2) < k
      · rw [if_pos hlt]
        rw [hkmid] at hlt
        have hmans : m ≤ ans := by
          by_contra hcon
          have hmono : keyAtL ks (ans + 1) ≤ keyAtL ks m :=
            keys_le ks hs (by omega) (by omega) hmlen
          omega
        exact bsearchL_eq ks k hs ((low + high) / 2 + 1) high ans
          (by omega) (by omega) hhi (by omega) hans2 hbr1 hbr2
      · rw [if_neg hlt]
        rw [hkmid] at hlt heq
        have hklt : k < keyAtL ks m :=
          lt_of_le_of_ne (not_lt.mp hlt) heq
        have hansm : ans < m := by
          by_contra hcon
          have hmono : keyAtL ks m ≤ keyAtL ks ans :=
            keys_le ks hs hm1 (not_lt.mp hcon) hanslen
          omega
        exact bsearchL_eq ks k hs low ((low + high) / 2 - 1) ans
          hlow1 (by omega) (by omega) hans1 (by omega) hbr1 hbr2
  · rw [dif_neg hcond]
    omega
termination_by (high + 1 - low).toNat
decreasing_by all_goals omega

/-- Between any slot whose key is `≤ k` and any later slot whose key is
`> k` there is a bracketing slot `i` with
`key_at(i) ≤ k < key_at(i+1)`. -/
theorem exists_bracket (ks : List Int) (k : Int) (a b : Nat)
    (hab : a < b) (hb : b < ks.length)
    (hka : keyAtL ks a ≤ k) (hkb : k < keyAtL ks b) :
    ∃ i, a ≤ i ∧ i < b ∧ keyAtL ks i ≤ k ∧ k < keyAtL ks (i + 1) := by
  by_cases hstep : a + 1 = b
  · refine ⟨a, le_refl a, hab, hka, ?_⟩
    rw [hstep]
    exact hkb
  · have hab2 : a + 1 < b := by omega
    by_cases hk1 : keyAtL ks (a + 1) ≤ k
    · obtain ⟨i, h1, h2, h3, h4⟩ :=
        exists_bracket ks k (a + 1) b hab2 hb hk1 hkb
      exact ⟨i, by omega, h2, h3, h4⟩
    · exact ⟨a, le_refl a, hab, hka, not_le.mp hk1⟩
termination_by b - a
decreasing_by omega

/-- `lookupSlot` returns the unique slot bracketing the search key:
any slot `ans` with `key_at(ans) ≤ k` (unless `ans = 0`) and
`k < key_at(ans+1)` (unless `ans` is the last slot) is the result. -/
theorem lookupSlot_eq (ks : List Int) (k : Int)
    (hs : (ks.drop 1).Pairwise (· < ·)) (hlen : 2 ≤ ks.length) (ans : Nat)
    (hans : ans < ks.length)
    (hlo : 1 ≤ ans → keyAtL ks ans ≤ k)
    (hhi : ans + 1 < ks.length → k < keyAtL ks (ans + 1)) :
    lookupSlot ks k = ans := by
  rw [lookupSlot]
  by_cases hg1 : k < keyAtL ks 1
  · rw [if_pos hg1]
    by_contra hcon
    have h1 : 1 ≤ ans := by omega
    have hmono : keyAtL ks 1 ≤ keyAtL ks ans :=
      keys_le ks hs (le_refl 1) h1 hans
    have := hlo h1
    omega
  · rw [if_neg hg1]
    by_cases hg2 : keyAtL ks (ks.length - 1) ≤ k
    · rw [if_pos hg2]
      by_contra hcon
      have h2 : ans + 1 < ks.length := by omega
      have hmono : keyAtL ks (ans + 1) ≤ keyAtL ks (ks.length - 1) :=
        keys_le ks hs (by omega) (by omega) (by omega)
      have := hhi h2
      omega
    · rw [if_neg hg2]
      have hka1 : keyAtL ks 1 ≤ k := not_lt.mp hg1
      have hklast : k < keyAtL ks (ks.length - 1) := not_le.mp hg2
      have hans1 : 1 ≤ ans := by
        by_contra hcon
        have h0 : ans = 0 := by omega
        have := hhi (by omega)
        rw [h0] at this
        simp only [Nat.zero_add] at this
        omega
      have hans2 : ans + 1 < ks.length := by
        by_contra hcon
        have h0 : ans = ks.length - 1 := by omega
        have := hlo hans1
        rw [h0] at this
        omega
      have hrw : bsearchL ks k 1 ((ks.length : Int) - 1) = (ans : Int) :=
        bsearchL_eq ks k hs 1 ((ks.length : Int) - 1) ans
          (le_refl 1) (by omega) (by omega) (by omega) (by omega)
          (hlo hans1) (hhi hans2)
      rw [hrw]
      omega

/-- `lookupSlot` is a real slot and brackets the search key. -/
theorem lookupSlot_spec (ks : List Int) (k : Int)
    (hs : (ks.drop 1).Pairwise (· < ·)) (hlen : 2 ≤ ks.length) :
    lookupSlot ks k < ks.length ∧
    (1 ≤ lookupSlot ks k → keyAtL ks (lookupSlot ks k) ≤ k) ∧
    (lookupSlot ks k + 1 < ks.length → k < keyAtL ks (lookupSlot ks k + 1)) := by
  by_cases hg1 : k < keyAtL ks 1
  · have h0 : lookupSlot ks k = 0 := by
      rw [lookupSlot, if_pos hg1]
    rw [h0]
    refine ⟨by omega, by omega, fun _ => hg1⟩
  · by_cases hg2 : keyAtL ks (ks.length - 1) ≤ k
    · have h0 : lookupSlot ks k = ks.length - 1 := by
        rw [lookupSlot, if_neg hg1, if_pos hg2]
      rw [h0]
      refine ⟨by omega, fun _ => hg2, by omega⟩
    · have hka1 : keyAtL ks 1 ≤ k := not_lt.mp hg1
      have hklast : k < keyAtL ks (ks.length - 1) := not_le.mp hg2
      have hlen3 : 3 ≤ ks.length := by
        by_contra hcon
        have h2 : ks.length = 2 := by omega
        rw [h2] at hklast
        norm_num at hklast
        omega
      obtain ⟨i, h1, h2, h3, h4⟩ :=
        exists_bracket ks k 1 (ks.length - 1) (by omega) (by omega)
          hka1 hklast
      have heq : lookupSlot ks k = i :=
        lookupSlot_eq ks k hs hlen i (by omega)
          (fun _ => h3) (fun _ => h4)
      rw [heq]
      exact ⟨by omega, fun _ => h3, fun _ => h4⟩

/-! ## List access toolkit for the tree proofs -/

/-- `getD` through `take`, below the cut. -/
theorem getD_take_of_lt (l : List α) (d : α) {i m : Nat} (h : i < m) :
    (l.take m).getD i d = l.getD i d := by
  simp only [List.getD_eq_getElem?_getD, List.getElem?_take_of_lt h]

/-- `getD` through `drop`. -/
theorem getD_drop (l : List α) (d : α) (m i : Nat) :
    (l.drop m).getD i d = l.getD (m + i) d := by
  simp only [List.getD_eq_getElem?_getD, List.getElem?_drop]

/-- `getD` at the written position of `set`. -/
theorem getD_set_self (l : List α) (d p : α) {j : Nat} (h : j < l.length) :
    (l.set j p).getD j d = p := by
  simp only [List.getD_eq_getElem?_getD, List.getElem?_set_self h,
    Option.getD_some]

/-- `getD` away from the written position of `set`. -/
theorem getD_set_ne (l : List α) (d p : α) {i j : Nat} (h : i ≠ j) :
    (l.set j p).getD i d = l.getD i d := by
  simp only [List.getD_eq_getElem?_getD, List.getElem?_set_ne (Ne.symm h)]

/-- Writing back the element already at a position is a no-op. -/
theorem set_getD_self (l : List α) (d : α) {j : Nat} (h : j < l.length) :
    l.set j (l.getD j d) = l := by
  induction l generalizing j with
  | nil => simp at h
  | cons a t ih =>
    cases j with
    | zero => simp [List.getD_cons_zero]
    | succ j =>
      simp only [List.length_cons, Nat.succ_lt_succ_iff] at h
      rw [List.getD_cons_succ, List.set_cons_succ, ih h]

/-- Length of an insertion. -/
theorem insertAt_length (l : List α) (p : α) {m : Nat} (hm : m ≤ l.length) :
    (insertAt l m p).length = l.length + 1 := by
  simp only [insertAt, List.length_append, List.length_cons,
    List.length_take, List.length_drop]
  omega

/-- `getD` of an insertion, below the inserted position. -/
theorem getD_insertAt_of_lt (l : List α) (p d : α) {i m : Nat} (h : i < m)
    (hm : m ≤ l.length) :
    (insertAt l m p).getD i d = l.getD i d := by
  simp only [insertAt, List.getD_eq_getElem?_getD]
  rw [List.getElem?_append_left (by simp only [List.length_take]; omega),
    List.getElem?_take_of_lt h]

/-- `getD` of an insertion at the inserted position. -/
theorem getD_insertAt_self (l : List α) (p d : α) {m : Nat}
    (hm : m ≤ l.length) :
    (insertAt l m p).getD m d = p := by
  simp only [insertAt, List.getD_eq_getElem?_getD]
  rw [List.getElem?_append_right (by simp only [List.length_take]; omega)]
  have h1 : m - (l.take m).length = 0 := by
    simp only [List.length_take]
    omega
  rw [h1]
  simp

/-- `getD` of an insertion, above the inserted position. -/
theorem getD_insertAt_of_gt (l : List α) (p d : α) {i m : Nat} (h : m < i)
    (hm : m ≤ l.length) :
    (insertAt l m p).getD i d = l.getD (i - 1) d := by
  simp only [insertAt, List.getD_eq_getElem?_getD]
  rw [List.getElem?_append_right (by simp only [List.length_take]; omega)]
  have h1 : i - (l.take m).length = (i - m - 1) + 1 := by
    simp only [List.length_take]
    omega
  rw [h1, List.getElem?_cons_succ, List.getElem?_drop]
  congr 2
  omega

/-- Membership via `getD`. -/
theorem mem_iff_getD (l : List α) (d : α) (x : α) :
    x ∈ l ↔ ∃ i, i < l.length ∧ l.getD i d = x := by
  rw [List.mem_iff_getElem]
  constructor
  · rintro ⟨i, hi, hx⟩
    refine ⟨i, hi, ?_⟩
    rw [List.getD_eq_getElem?_getD, List.getElem?_eq_getElem hi]
    simpa using hx
  · rintro ⟨i, hi, hx⟩
    refine ⟨i, hi, ?_⟩
    rw [List.getD_eq_getElem?_getD, List.getElem?_eq_getElem hi] at hx
    simpa using hx

/-- Membership in `take` via `getD`. -/
theorem mem_take_iff_getD (l : List α) (d : α) (x : α) (m : Nat) :
    x ∈ l.take m ↔ ∃ i, i < m ∧ i < l.length ∧ l.getD i d = x := by
  rw [mem_iff_getD (l.take m) d x]
  constructor
  · rintro ⟨i, hi, hx⟩
    simp only [List.length_take] at hi
    refine ⟨i, by omega, by omega, ?_⟩
    rw [← getD_take_of_lt l d (show i < m by omega)]
    exact hx
  · rintro ⟨i, him, hil, hx⟩
    refine ⟨i, by simp only [List.length_take]; omega, ?_⟩
    rw [getD_take_of_lt l d him]
    exact hx

/-- Membership in `drop` via `getD`. -/
theorem mem_drop_iff_getD (l : List α) (d : α) (x : α) (m : Nat) :
    x ∈ l.drop m ↔ ∃ i, m ≤ i ∧ i < l.length ∧ l.getD i d = x := by
  rw [mem_iff_getD (l.drop m) d x]
  constructor
  · rintro ⟨i, hi, hx⟩
    simp only [List.length_drop] at hi
    refine ⟨m + i, by omega, by omega, ?_⟩
    rw [← getD_drop l d m i]
    exact hx
  · rintro ⟨i, hmi, hil, hx⟩
    refine ⟨i - m, by simp only [List.length_drop]; omega, ?_⟩
    rw [getD_drop l d m (i - m)]
    have : m + (i - m) = i := by omega
    rw [this]
    exact hx

/-- Pairwise strict order of the real keys (all slots from 1 on),
read index-wise through `keyAtL`. -/
theorem pairwise_drop_one_iff (xs : List Int) :
    (xs.drop 1).Pairwise (· < ·) ↔
      ∀ i j, 1 ≤ i → i < j → j < xs.length → keyAtL xs i < keyAtL xs j := by
  rw [List.pairwise_iff_getElem]
  constructor
  · intro h i j h1 hij hj
    have hi : i < xs.length := by omega
    have hi' : i - 1 < (xs.drop 1).length := by
      simp only [List.length_drop]
      omega
    have hj' : j - 1 < (xs.drop 1).length := by
      simp only [List.length_drop]
      omega
    have := h (i - 1) (j - 1) hi' hj' (by omega)
    rw [List.getElem_drop, List.getElem_drop] at this
    rw [keyAtL_eq_getElem xs i hi, keyAtL_eq_getElem xs j hj]
    have e1 : 1 + (i - 1) = i := by omega
    have e2 : 1 + (j - 1) = j := by omega
    simp only [e1, e2] at this
    exact this
  · intro h a b ha hb hab
    simp only [List.length_drop] at ha hb
    rw [List.getElem_drop, List.getElem_drop]
    rw [← keyAtL_eq_getElem xs (1 + a) (by omega),
      ← keyAtL_eq_getElem xs (1 + b) (by omega)]
    exact h (1 + a) (1 + b) (by omega) (by omega) (by omega)

/-- Quantification over the real keys (all slots from 1 on), read
index-wise through `keyAtL`. -/
theorem forall_mem_drop_one_iff (xs : List Int) (P : Int → Prop) :
    (∀ x ∈ xs.drop 1, P x) ↔
      ∀ i, 1 ≤ i → i < xs.length → P (keyAtL xs i) := by
  constructor
  · intro h i h1 hi
    refine h _ ((mem_drop_iff_getD xs 0 _ 1).mpr ⟨i, h1, hi, rfl⟩)
  · intro h x hx
    obtain ⟨i, h1, hi, hx⟩ := (mem_drop_iff_getD xs 0 x 1).mp hx
    rw [← hx]
    exact h i h1 hi

/-- Index-wise strict monotonicity of a fully sorted key list. -/
theorem sortedL_lt (xs : List Int) (hs : xs.Pairwise (· < ·)) {i j : Nat}
    (hij : i < j) (hj : j < xs.length) : keyAtL xs i < keyAtL xs j := by
  rw [keyAtL_eq_getElem xs i (by omega), keyAtL_eq_getElem xs j hj]
  exact List.pairwise_iff_getElem.mp hs i j (by omega) hj hij

/-- Index-wise monotonicity of a fully sorted key list. -/
theorem sortedL_le (xs : List Int) (hs : xs.Pairwise (· < ·)) {i j : Nat}
    (hij : i ≤ j) (hj : j < xs.length) : keyAtL xs i ≤ keyAtL xs j := by
  rcases Nat.eq_or_lt_of_le hij with h | h
  · rw [h]
  · exact le_of_lt (sortedL_lt xs hs h hj)

/-! ## Leaf operation lemmas -/

/-- An entry of `leafInsert`'s result is an old entry or the inserted
one. -/
theorem mem_leafInsert (es : List (Int × Nat)) (k : Int) (v : Nat) :
    ∀ e ∈ leafInsert es k v, e ∈ es ∨ e = (k, v) := by
  induction es with
  | nil =>
    intro e he
    simp only [leafInsert, List.mem_singleton] at he
    exact Or.inr he
  | cons a t ih =>
    obtain ⟨k', v'⟩ := a
    intro e he
    by_cases h1 : k < k'
    · simp only [leafInsert, if_pos h1, List.mem_cons] at he
      rcases he with he | he | he
      · exact Or.inr he
      · exact Or.inl (by simp [he])
      · exact Or.inl (List.mem_cons_of_mem _ he)
    · by_cases h2 : k = k'
      · simp only [leafInsert, if_neg h1, if_pos h2] at he
        exact Or.inl he
      · simp only [leafInsert, if_neg h1, if_neg h2, List.mem_cons] at he
        rcases he with he | he
        · exact Or.inl (by simp [he])
        · rcases ih e he with h | h
          · exact Or.inl (List.mem_cons_of_mem _ h)
          · exact Or.inr h

/-- Inserting a fresh key grows the slot array by one. -/
theorem leafInsert_length (es : List (Int × Nat)) (k : Int) (v : Nat)
    (h : leafLookup es k = none) :
    (leafInsert es k v).length = es.length + 1 := by
  induction es with
  | nil => simp [leafInsert]
  | cons a t ih =>
    obtain ⟨k', v'⟩ := a
    by_cases h2 : k = k'
    · rw [leafLookup, if_pos h2] at h
      exact absurd h (by simp)
    · rw [leafLookup, if_neg h2] at h
      by_cases h1 : k < k'
      · simp [leafInsert, h1]
      · simp [leafInsert, h1, h2, ih h]

/-- Looking up the freshly inserted key finds the inserted value. -/
theorem leafLookup_leafInsert (es : List (Int × Nat)) (k : Int) (v : Nat)
    (h : leafLookup es k = none) :
    leafLookup (leafInsert es k v) k = some v := by
  induction es with
  | nil => simp [leafInsert, leafLookup]
  | cons a t ih =>
    obtain ⟨k', v'⟩ := a
    by_cases h2 : k = k'
    · rw [leafLookup, if_pos h2] at h
      exact absurd h (by simp)
    · rw [leafLookup, if_neg h2] at h
      by_cases h1 : k < k'
      · simp [leafInsert, h1, leafLookup]
      · simp [leafInsert, h1, h2, leafLookup, ih h]

/-- A successful leaf lookup exhibits a stored entry. -/
theorem leafLookup_mem (es : List (Int × Nat)) (k : Int) (v : Nat)
    (h : leafLookup es k = some v) : (k, v) ∈ es := by
  induction es with
  | nil => simp [leafLookup] at h
  | cons a t ih =>
    obtain ⟨k', v'⟩ := a
    by_cases h2 : k = k'
    · rw [leafLookup, if_pos h2] at h
      simp only [Option.some_inj] at h
      simp [h2, h]
    · rw [leafLookup, if_neg h2] at h
      exact List.mem_cons_of_mem _ (ih h)

/-- On a leaf with strictly increasing keys, a stored entry is found by
lookup. -/
theorem leafLookup_eq_some_of_mem (es : List (Int × Nat)) (k : Int) (v : Nat)
    (hs : (es.map Prod.fst).Pairwise (· < ·)) (hmem : (k, v) ∈ es) :
    leafLookup es k = some v := by
  induction es with
  | nil => simp at hmem
  | cons a t ih =>
    obtain ⟨k', v'⟩ := a
    simp only [List.map_cons, List.pairwise_cons] at hs
    rcases List.mem_cons.mp hmem with he | he
    · have hk : k = k' := by simpa using congrArg Prod.fst he
      have hv : v = v' := by simpa using congrArg Prod.snd he
      rw [leafLookup, if_pos hk, hv]
    · have hk : k ≠ k' := by
        intro hkk
        have : k' < k := hs.1 k (List.mem_map.mpr ⟨(k, v), he, rfl⟩)
        omega
      rw [leafLookup, if_neg hk]
      exact ih hs.2 he

/-- `leafInsert` preserves strictly increasing keys. -/
theorem leafInsert_sorted (es : List (Int × Nat)) (k : Int) (v : Nat)
    (hs : (es.map Prod.fst).Pairwise (· < ·)) :
    ((leafInsert es k v).map Prod.fst).Pairwise (· < ·) := by
  induction es with
  | nil => simp [leafInsert]
  | cons a t ih =>
    obtain ⟨k', v'⟩ := a
    simp only [List.map_cons, List.pairwise_cons] at hs
    by_cases h1 : k < k'
    · simp only [leafInsert, if_pos h1, List.map_cons, List.pairwise_cons]
      refine ⟨?_, hs.1, hs.2⟩
      intro x hx
      rcases List.mem_cons.mp hx with hx | hx
      · omega
      · have := hs.1 x hx
        omega
    · by_cases h2 : k = k'
      · simp only [leafInsert, if_neg h1, if_pos h2, List.map_cons,
          List.pairwise_cons]
        exact ⟨hs.1, hs.2⟩
      · simp only [leafInsert, if_neg h1, if_neg h2, List.map_cons,
          List.pairwise_cons]
        refine ⟨?_, ih hs.2⟩
        intro x hx
        obtain ⟨e, he, hex⟩ := List.mem_map.mp hx
        rcases mem_leafInsert t k v e he with h | h
        · exact hs.1 x (hex ▸ List.mem_map.mpr ⟨e, h, rfl⟩)
        · rw [← hex, h]
          omega

/-! ## Node slot access lemmas -/

/-- The key list has as many slots as the node. -/
theorem nodeKeys_length (cs : List (Int × BTree)) :
    (nodeKeys cs).length = cs.length := by
  simp [nodeKeys]

/-- Replacing a child subtree in place leaves the slot keys unchanged. -/
theorem nodeKeys_set_self (cs : List (Int × BTree)) (t : BTree) (j : Nat) :
    nodeKeys (cs.set j (keyAtL (nodeKeys cs) j, t)) = nodeKeys cs := by
  by_cases hj : j < cs.length
  · unfold nodeKeys keyAtL
    rw [List.map_set]
    exact set_getD_self (cs.map Prod.fst) 0 (by simpa using hj)
  · rw [List.set_eq_of_length_le (by omega)]

/-- The keys of an insertion. -/
theorem nodeKeys_insertAt (cs : List (Int × BTree)) (m : Nat)
    (p : Int × BTree) :
    nodeKeys (insertAt cs m p) = insertAt (nodeKeys cs) m p.1 := by
  simp [nodeKeys, insertAt, List.map_take, List.map_drop]

/-- The keys of a `take`. -/
theorem nodeKeys_take (cs : List (Int × BTree)) (m : Nat) :
    nodeKeys (cs.take m) = (nodeKeys cs).take m := by
  simp [nodeKeys, List.map_take]

/-- The keys of a `drop`. -/
theorem nodeKeys_drop (cs : List (Int × BTree)) (m : Nat) :
    nodeKeys (cs.drop m) = (nodeKeys cs).drop m := by
  simp [nodeKeys, List.map_drop]

/-- The child written by `set`. -/
theorem childAt_set_self (cs : List (Int × BTree)) (key : Int) (t : BTree)
    {j : Nat} (h : j < cs.length) : childAt (cs.set j (key, t)) j = t := by
  unfold childAt
  rw [getD_set_self cs _ _ h]

/-- A child away from the written slot of `set`. -/
theorem childAt_set_ne (cs : List (Int × BTree)) (p : Int × BTree)
    {i j : Nat} (h : i ≠ j) : childAt (cs.set j p) i = childAt cs i := by
  unfold childAt
  rw [getD_set_ne cs _ _ h]

/-- A child below an insertion. -/
theorem childAt_insertAt_of_lt (cs : List (Int × BTree)) (p : Int × BTree)
    {i m : Nat} (h : i < m) (hm : m ≤ cs.length) :
    childAt (insertAt cs m p) i = childAt cs i := by
  unfold childAt
  rw [getD_insertAt_of_lt cs p _ h hm]

/-- The inserted child. -/
theorem childAt_insertAt_self (cs : List (Int × BTree)) (p : Int × BTree)
    {m : Nat} (hm : m ≤ cs.length) : childAt (insertAt cs m p) m = p.2 := by
  unfold childAt
  rw [getD_insertAt_self cs p _ hm]

/-- A child above an insertion. -/
theorem childAt_insertAt_of_gt (cs : List (Int × BTree)) (p : Int × BTree)
    {i m : Nat} (h : m < i) (hm : m ≤ cs.length) :
    childAt (insertAt cs m p) i = childAt cs (i - 1) := by
  unfold childAt
  rw [getD_insertAt_of_gt cs p _ h hm]

/-- A child of a `take`. -/
theorem childAt_take_of_lt (cs : List (Int × BTree)) {i m : Nat} (h : i < m) :
    childAt (cs.take m) i = childAt cs i := by
  unfold childAt
  rw [getD_take_of_lt cs _ h]

/-- A child of a `drop`. -/
theorem childAt_drop (cs : List (Int × BTree)) (m i : Nat) :
    childAt (cs.drop m) i = childAt cs (m + i) := by
  unfold childAt
  rw [getD_drop cs _ m i]

/-- The key of an insertion, below the inserted position. -/
theorem keyAtL_insertAt_of_lt (ks : List Int) (x : Int) {i m : Nat}
    (h : i < m) (hm : m ≤ ks.length) :
    keyAtL (insertAt ks m x) i = keyAtL ks i := by
  unfold keyAtL
  rw [getD_insertAt_of_lt ks x 0 h hm]

/-- The inserted key. -/
theorem keyAtL_insertAt_self (ks : List Int) (x : Int) {m : Nat}
    (hm : m ≤ ks.length) : keyAtL (insertAt ks m x) m = x := by
  unfold keyAtL
  rw [getD_insertAt_self ks x 0 hm]

/-- The key of an insertion, above the inserted position. -/
theorem keyAtL_insertAt_of_gt (ks : List Int) (x : Int) {i m : Nat}
    (h : m < i) (hm : m ≤ ks.length) :
    keyAtL (insertAt ks m x) i = keyAtL ks (i - 1) := by
  unfold keyAtL
  rw [getD_insertAt_of_gt ks x 0 h hm]

/-- The key of a `take`. -/
theorem keyAtL_take_of_lt (ks : List Int) {i m : Nat} (h : i < m) :
    keyAtL (ks.take m) i = keyAtL ks i := by
  unfold keyAtL
  rw [getD_take_of_lt ks 0 h]

/-- The key of a `drop`. -/
theorem keyAtL_drop (ks : List Int) (m i : Nat) :
    keyAtL (ks.drop m) i = keyAtL ks (m + i) := by
  unfold keyAtL
  rw [getD_drop ks 0 m i]

/-! ## Walker bridges and recursion measure -/

/-- The `getChild` walker is `getValueAux` at the indexed child. -/
theorem getChild_eq (k : Int) (cs : List (Int × BTree)) (j : Nat)
    (h : j < cs.length) : getChild k cs j = getValueAux k (childAt cs j) := by
  induction cs generalizing j with
  | nil => simp at h
  | cons c rest ih =>
    cases j with
    | zero => rw [getChild, childAt, List.getD_cons_zero]
    | succ n =>
      simp only [List.length_cons, Nat.succ_lt_succ_iff] at h
      rw [getChild, childAt, List.getD_cons_succ, ih n h, childAt]

/-- The `getChild` walker past the last slot. -/
theorem getChild_oob (k : Int) (cs : List (Int × BTree)) (j : Nat)
    (h : cs.length ≤ j) : getChild k cs j = none := by
  induction cs generalizing j with
  | nil => rw [getChild]
  | cons c rest ih =>
    cases j with
    | zero => simp at h
    | succ n =>
      simp only [List.length_cons, Nat.succ_le_succ_iff] at h
      rw [getChild, ih n h]

/-- The `insertChild` walker is `insertRec` at the indexed child. -/
theorem insertChild_eq (L I : Nat) (k : Int) (v : Nat)
    (cs : List (Int × BTree)) (j : Nat) (h : j < cs.length) :
    insertChild L I k v cs j = insertRec L I k v (childAt cs j) := by
  induction cs generalizing j with
  | nil => simp at h
  | cons c rest ih =>
    cases j with
    | zero => rw [insertChild, childAt, List.getD_cons_zero]
    | succ n =>
      simp only [List.length_cons, Nat.succ_lt_succ_iff] at h
      rw [insertChild, childAt, List.getD_cons_succ, ih n h, childAt]

/-- The `insertChild` walker past the last slot. -/
theorem insertChild_oob (L I : Nat) (k : Int) (v : Nat)
    (cs : List (Int × BTree)) (j : Nat) (h : cs.length ≤ j) :
    insertChild L I k v cs j = .one (.leaf []) := by
  induction cs generalizing j with
  | nil => rw [insertChild]
  | cons c rest ih =>
    cases j with
    | zero => simp at h
    | succ n =>
      simp only [List.length_cons, Nat.succ_le_succ_iff] at h
      rw [insertChild, ih n h]

/-- A child subtree is smaller than its node (recursion measure for
the theorems about the mutual descent). -/
theorem sizeOf_childAt_lt (cs : List (Int × BTree)) {j : Nat}
    (h : j < cs.length) : sizeOf (childAt cs j) < sizeOf (BTree.node cs) := by
  have hmem : cs.getD j (0, .leaf []) ∈ cs := by
    rw [List.getD_eq_getElem?_getD, List.getElem?_eq_getElem h]
    exact List.getElem_mem h
  have h1 := List.sizeOf_lt_of_mem hmem
  have h2 : sizeOf (childAt cs j) < sizeOf (cs.getD j (0, BTree.leaf [])) := by
    unfold childAt
    obtain ⟨x, y⟩ := cs.getD j (0, BTree.leaf [])
    simp
  have h3 : sizeOf (BTree.node cs) = 1 + sizeOf cs := by
    simp
  omega

/-! ## Duplicate-key detection and the leaf split boundary -/

/-- The insertion recursion reports a duplicate exactly when the
descent (which chooses the same child as `GetValue`'s) finds the key
already stored. -/
theorem insertRec_dup_iff (L I : Nat) (k : Int) (v : Nat) (t : BTree) :
    insertRec L I k v t = .dup ↔ (getValueAux k t).isSome := by
  cases t with
  | leaf es =>
    simp only [insertRec, getValueAux]
    by_cases h : (leafLookup es k).isSome
    · simp [h]
    · simp only [Bool.not_eq_true] at h
      rw [if_neg (by simp [h]), h]
      simp only [Bool.false_eq_true, iff_false]
      split <;> simp
  | node cs =>
    simp only [insertRec, getValueAux]
    by_cases hj : lookupSlot (nodeKeys cs) k < cs.length
    · rw [insertChild_eq L I k v cs _ hj, getChild_eq k cs _ hj]
      have IH := insertRec_dup_iff L I k v (childAt cs (lookupSlot (nodeKeys cs) k))
      cases hres : insertRec L I k v (childAt cs (lookupSlot (nodeKeys cs) k)) with
      | dup =>
        rw [hres] at IH
        simpa using IH
      | one t' =>
        rw [hres] at IH
        exact ⟨fun hcon => absurd hcon (by simp),
          fun hcon => absurd (IH.mpr hcon) (by simp)⟩
      | split l sep r =>
        rw [hres] at IH
        have hne : (getValueAux k (childAt cs (lookupSlot (nodeKeys cs) k))).isSome = false := by
          rw [← Bool.not_eq_true, ← IH]
          simp
        rw [hne]
        simp only [Bool.false_eq_true, iff_false]
        split <;> simp_all
    · rw [insertChild_oob L I k v cs _ (by omega), getChild_oob k cs _ (by omega)]
      simp
termination_by sizeOf t
decreasing_by exact sizeOf_childAt_lt cs hj

/-- The leaf-level split decision of `InsertIntoLeaf`: a fresh-key
insertion that leaves the leaf at or below `max_size` entries (in
particular one reaching exactly `max_size`) does not split; the
insertion that brings it to `max_size + 1` entries splits, and both
resulting leaves hold between 1 and `max_size` entries. -/
theorem leaf_split_boundary (L I : Nat) (es : List (Int × Nat)) (k : Int)
    (v : Nat) (hfresh : leafLookup es k = none) :
    (es.length + 1 ≤ L →
      insertRec L I k v (.leaf es) = .one (.leaf (leafInsert es k v)) ∧
      (leafInsert es k v).length = es.length + 1) ∧
    (es.length = L → 1 ≤ L →
      insertRec L I k v (.leaf es)
        = .split (.leaf ((leafInsert es k v).take ((L + 2) / 2)))
            (keyAtL ((leafInsert es k v).map Prod.fst) ((L + 2) / 2))
            (.leaf ((leafInsert es k v).drop ((L + 2) / 2))) ∧
      ((leafInsert es k v).take ((L + 2) / 2)).length ≤ L ∧
      1 ≤ ((leafInsert es k v).take ((L + 2) / 2)).length ∧
      ((leafInsert es k v).drop ((L + 2) / 2)).length ≤ L ∧
      1 ≤ ((leafInsert es k v).drop ((L + 2) / 2)).length) := by
  have hlen := leafInsert_length es k v hfresh
  have hns : ¬ (leafLookup es k).isSome = true := by
    simp [hfresh]
  constructor
  · intro h
    rw [insertRec]
    rw [if_neg hns, if_pos (by omega)]
    exact ⟨rfl, hlen⟩
  · intro hL h1
    rw [insertRec]
    rw [if_neg hns, if_neg (by omega)]
    refine ⟨by rw [hlen, hL], ?_, ?_, ?_, ?_⟩ <;>
      simp only [List.length_take, List.length_drop, hlen, hL] <;>
      omega

/-- C4 counterexample: with configured leaf maximum `L = 2`, inserting
key 2 into the single-leaf tree holding `[(1, 10)]` brings the leaf to
exactly `L` entries and does **not** split it — the root is still a
leaf holding `L` live entries after the completed top-level insert.
This refutes both "the next insertion into that leaf (reaching L
entries) splits it" and "a leaf never holds more than L-1 live entries
after a completed top-level insert" (the code splits only above
`max_size`). -/
theorem insert_filling_leaf_to_max_does_not_split :
    (treeInsert 2 3 (some (.leaf [(1, 10)])) 2 20).1 = true ∧
    rootIsLeaf (treeInsert 2 3 (some (.leaf [(1, 10)])) 2 20).2 = true ∧
    (rootLeafEntries (treeInsert 2 3 (some (.leaf [(1, 10)])) 2 20).2).length
      = 2 ∧
    rootLeafEntries (treeInsert 2 3 (some (.leaf [(1, 10)])) 2 20).2
      = [(1, 10), (2, 20)] := by
  decide

/-- C4 witness: with `L = 2`, the fresh insertion filling the leaf to
exactly `L = 2` entries stays in place, and the fresh insertion
bringing it to `L + 1 = 3` entries splits it into leaves of 2 and 1
entries. -/
theorem leaf_split_boundary_witness :
    insertRec 2 3 2 20 (.leaf [(1, 10)]) = .one (.leaf [(1, 10), (2, 20)]) ∧
    insertRec 2 3 3 30 (.leaf [(1, 10), (2, 20)])
      = .split (.leaf [(1, 10), (2, 20)]) 3 (.leaf [(3, 30)]) := by
  have h1 := (leaf_split_boundary 2 3 [(1, 10)] 2 20 (by decide)).1 (by decide)
  have h2 := (leaf_split_boundary 2 3 [(1, 10), (2, 20)] 3 30 (by decide)).2
    (by decide) (by decide)
  exact ⟨h1.1.trans rfl, h2.1.trans rfl⟩

/-! ## Window-bound helpers -/

/-- A strict lower window bound propagates along `≤`. -/
theorem loLT_le_trans {lo : Option Int} {a b : Int} (h1 : loLT lo a)
    (h2 : a ≤ b) : loLT lo b := by
  cases lo with
  | none => trivial
  | some x => exact lt_of_lt_of_le h1 h2

/-- A weak lower window bound propagates along `≤`. -/
theorem loLE_le_trans {lo : Option Int} {a b : Int} (h1 : loLE lo a)
    (h2 : a ≤ b) : loLE lo b := by
  cases lo with
  | none => trivial
  | some x => exact le_trans h1 h2

/-- An upper window bound propagates back along `≤`. -/
theorem le_ltHi_trans {a b : Int} {hi : Option Int} (h1 : a ≤ b)
    (h2 : ltHi b hi) : ltHi a hi := by
  cases hi with
  | none => trivial
  | some x => exact lt_of_le_of_lt h1 h2

/-- Strict implies weak lower window bound. -/
theorem loLE_of_loLT {lo : Option Int} {a : Int} (h : loLT lo a) :
    loLE lo a := by
  cases lo with
  | none => trivial
  | some x => exact le_of_lt h

/-- The child window's lower bound at slot 0. -/
theorem childLo_zero (lo : Option Int) (ks : List Int) :
    childLo lo ks 0 = lo := if_pos rfl

/-- The child window's lower bound at a positive slot. -/
theorem childLo_pos (lo : Option Int) (ks : List Int) {j : Nat}
    (h : j ≠ 0) : childLo lo ks j = some (keyAtL ks j) := if_neg h

/-- The child window's upper bound at the last slot. -/
theorem childHi_last (hi : Option Int) (ks : List Int) {j : Nat}
    (h : j + 1 = ks.length) : childHi hi ks j = hi := if_pos h

/-- The child window's upper bound at a non-last slot. -/
theorem childHi_mid (hi : Option Int) (ks : List Int) {j : Nat}
    (h : j + 1 ≠ ks.length) : childHi hi ks j = some (keyAtL ks (j + 1)) :=
  if_neg h

/-! ## Key structure of a node after a child split -/

/-- After a child split at slot `j` pushes separator `sep` up into slot
`j + 1`: the separator lies strictly inside the node's window, the key
list stays strictly increasing from slot 1 on, and all real keys stay
strictly inside the window. -/
theorem split_keys_wf (ks : List Int) (lo hi : Option Int) (j : Nat)
    (sep : Int) (hj : j < ks.length)
    (hsort : (ks.drop 1).Pairwise (· < ·))
    (hkb : ∀ x ∈ ks.drop 1, loLT lo x ∧ ltHi x hi)
    (hsepl : loLT (childLo lo ks j) sep)
    (hsepr : ltHi sep (childHi hi ks j)) :
    loLT lo sep ∧ ltHi sep hi ∧
    ((insertAt ks (j + 1) sep).drop 1).Pairwise (· < ·) ∧
    (∀ x ∈ (insertAt ks (j + 1) sep).drop 1, loLT lo x ∧ ltHi x hi) := by
  have hkb' := (forall_mem_drop_one_iff ks _).mp hkb
  have hlen' : (insertAt ks (j + 1) sep).length = ks.length + 1 :=
    insertAt_length ks sep (by omega)
  have hk'lt : ∀ i, i < j + 1 → keyAtL (insertAt ks (j + 1) sep) i = keyAtL ks i :=
    fun i hi' => keyAtL_insertAt_of_lt ks sep hi' (by omega)
  have hk'self : keyAtL (insertAt ks (j + 1) sep) (j + 1) = sep :=
    keyAtL_insertAt_self ks sep (by omega)
  have hk'gt : ∀ i, j + 1 < i → keyAtL (insertAt ks (j + 1) sep) i = keyAtL ks (i - 1) :=
    fun i hi' => keyAtL_insertAt_of_gt ks sep hi' (by omega)
  have hsepl' : ∀ h1 : 1 ≤ j, keyAtL ks j < sep := by
    intro h1
    rw [childLo_pos lo ks (by omega)] at hsepl
    exact hsepl
  have hsepr' : ∀ h1 : j + 1 < ks.length, sep < keyAtL ks (j + 1) := by
    intro h1
    rw [childHi_mid hi ks (by omega)] at hsepr
    exact hsepr
  have hseplo : loLT lo sep := by
    by_cases h0 : j = 0
    · rw [h0, childLo_zero] at hsepl
      exact hsepl
    · exact loLT_le_trans (hkb' j (by omega) hj).1 (le_of_lt (hsepl' (by omega)))
  have hsephi : ltHi sep hi := by
    by_cases hlast : j + 1 = ks.length
    · rw [childHi_last hi ks hlast] at hsepr
      exact hsepr
    · exact le_ltHi_trans (le_of_lt (hsepr' (by omega)))
        (hkb' (j + 1) (by omega) (by omega)).2
  have hmono : ∀ a b : Nat, 1 ≤ a → a ≤ b → b < ks.length →
      keyAtL ks a ≤ keyAtL ks b :=
    fun a b h1 h2 h3 => keys_le ks hsort h1 h2 h3
  have hmonolt : ∀ a b : Nat, 1 ≤ a → a < b → b < ks.length →
      keyAtL ks a < keyAtL ks b :=
    fun a b h1 h2 h3 => keys_lt ks hsort h1 h2 h3
  refine ⟨hseplo, hsephi, ?_, ?_⟩
  · rw [pairwise_drop_one_iff]
    intro a b h1a hab hb
    rw [hlen'] at hb
    rcases Nat.lt_trichotomy b (j + 1) with hb' | hb' | hb'
    · rw [hk'lt a (by omega), hk'lt b hb']
      exact hmonolt a b h1a hab (by omega)
    · rw [hk'lt a (by omega), hb', hk'self]
      have h1j : 1 ≤ j := by omega
      calc keyAtL ks a ≤ keyAtL ks j := hmono a j h1a (by omega) (by omega)
        _ < sep := hsepl' h1j
    · rw [hk'gt b hb']
      rcases Nat.lt_trichotomy a (j + 1) with ha' | ha' | ha'
      · rw [hk'lt a ha']
        exact hmonolt a (b - 1) h1a (by omega) (by omega)
      · rw [ha', hk'self]
        calc sep < keyAtL ks (j + 1) := hsepr' (by omega)
          _ ≤ keyAtL ks (b - 1) := hmono (j + 1) (b - 1) (by omega) (by omega) (by omega)
      · rw [hk'gt a ha']
        exact hmonolt (a - 1) (b - 1) (by omega) (by omega) (by omega)
  · rw [forall_mem_drop_one_iff]
    intro i h1i hi'
    rw [hlen'] at hi'
    rcases Nat.lt_trichotomy i (j + 1) with h' | h' | h'
    · rw [hk'lt i h']
      exact hkb' i h1i (by omega)
    · rw [h', hk'self]
      exact ⟨hseplo, hsephi⟩
    · rw [hk'gt i h']
      exact hkb' (i - 1) (by omega) (by omega)

/-- After a child split at slot `j`: child `j` becomes the lower half,
slot `j + 1` holds the upper half under the separator, and every other
child keeps its window. -/
theorem split_children_wf (L I : Nat) (cs : List (Int × BTree))
    (lo hi : Option Int) (j : Nat) (l r : BTree) (sep : Int)
    (hj : j < cs.length)
    (hch : ∀ i, i < cs.length →
      WF L I (childLo lo (nodeKeys cs) i) (childHi hi (nodeKeys cs) i)
        (childAt cs i))
    (hWFl : WF L I (childLo lo (nodeKeys cs) j) (some sep) l)
    (hWFr : WF L I (some sep) (childHi hi (nodeKeys cs) j) r) :
    ∀ i, i < cs.length + 1 →
      WF L I (childLo lo (insertAt (nodeKeys cs) (j + 1) sep) i)
        (childHi hi (insertAt (nodeKeys cs) (j + 1) sep) i)
        (childAt (insertAt (cs.set j (keyAtL (nodeKeys cs) j, l)) (j + 1) (sep, r)) i) := by
  intro i hi'
  set ks := nodeKeys cs with hks
  set ks' := insertAt ks (j + 1) sep with hksp
  set cs1 := cs.set j (keyAtL ks j, l) with hcs1
  have hkslen : ks.length = cs.length := nodeKeys_length cs
  have hcs1len : cs1.length = cs.length := by rw [hcs1, List.length_set]
  have hks'len : ks'.length = ks.length + 1 := insertAt_length ks sep (by omega)
  have hk'lt : ∀ a, a < j + 1 → keyAtL ks' a = keyAtL ks a :=
    fun a h => keyAtL_insertAt_of_lt ks sep h (by omega)
  have hk'self : keyAtL ks' (j + 1) = sep := keyAtL_insertAt_self ks sep (by omega)
  have hk'gt : ∀ a, j + 1 < a → keyAtL ks' a = keyAtL ks (a - 1) :=
    fun a h => keyAtL_insertAt_of_gt ks sep h (by omega)
  rcases Nat.lt_trichotomy i (j + 1) with hcase | hcase | hcase
  · have hci : childAt (insertAt cs1 (j + 1) (sep, r)) i = childAt cs1 i :=
      childAt_insertAt_of_lt cs1 (sep, r) hcase (by omega)
    rw [hci]
    by_cases hij : i = j
    · subst hij
      rw [hcs1, childAt_set_self cs _ l hj]
      have hlo : childLo lo ks' i = childLo lo ks i := by
        by_cases h0 : i = 0
        · rw [h0, childLo_zero, childLo_zero]
        · rw [childLo_pos lo ks' h0, childLo_pos lo ks h0, hk'lt i (by omega)]
      have hhi2 : childHi hi ks' i = some sep := by
        rw [childHi_mid hi ks' (by omega), hk'self]
      rw [hlo, hhi2]
      exact hWFl
    · rw [hcs1, childAt_set_ne cs _ hij]
      have hlo : childLo lo ks' i = childLo lo ks i := by
        by_cases h0 : i = 0
        · rw [h0, childLo_zero, childLo_zero]
        · rw [childLo_pos lo ks' h0, childLo_pos lo ks h0, hk'lt i (by omega)]
      have hhi2 : childHi hi ks' i = childHi hi ks i := by
        rw [childHi_mid hi ks' (by omega), childHi_mid hi ks (by omega),
          hk'lt (i + 1) (by omega)]
      rw [hlo, hhi2]
      exact hch i (by omega)
  · rw [hcase, childAt_insertAt_self cs1 (sep, r) (by omega)]
    have hlo : childLo lo ks' (j + 1) = some sep := by
      rw [childLo_pos lo ks' (by omega), hk'self]
    rw [hlo]
    by_cases hlast : j + 1 = ks.length
    · rw [childHi_last hi ks' (by omega)]
      rw [childHi_last hi ks hlast] at hWFr
      exact hWFr
    · rw [childHi_mid hi ks' (by omega), hk'gt (j + 2) (by omega)]
      rw [childHi_mid hi ks hlast] at hWFr
      exact hWFr
  · rw [childAt_insertAt_of_gt cs1 (sep, r) hcase (by omega), hcs1,
      childAt_set_ne cs _ (show i - 1 ≠ j by omega)]
    have hlo : childLo lo ks' i = childLo lo ks (i - 1) := by
      rw [childLo_pos lo ks' (by omega), childLo_pos lo ks (by omega),
        hk'gt i hcase]
    have hhi2 : childHi hi ks' i = childHi hi ks (i - 1) := by
      by_cases hlast : i = ks.length
      · rw [childHi_last hi ks' (by omega), childHi_last hi ks (by omega)]
      · rw [childHi_mid hi ks' (by omega), childHi_mid hi ks (by omega),
          hk'gt (i + 1) (by omega)]
        have he : i + 1 - 1 = i - 1 + 1 := by omega
        rw [he]
    rw [hlo, hhi2]
    exact hch (i - 1) (by omega)

/-- The lower `m` slots of a well-formed node list form a well-formed
node under the separator key at slot `m`. -/
theorem wf_node_take (L I : Nat) (cs : List (Int × BTree))
    (lo hi : Option Int) (m : Nat)
    (hsort : ((nodeKeys cs).drop 1).Pairwise (· < ·))
    (hkb : ∀ x ∈ (nodeKeys cs).drop 1, loLT lo x ∧ ltHi x hi)
    (hch : ∀ i, i < cs.length →
      WF L I (childLo lo (nodeKeys cs) i) (childHi hi (nodeKeys cs) i)
        (childAt cs i))
    (h2 : 2 ≤ m) (hm : m < cs.length) (hmI : m ≤ I) :
    WF L I lo (some (keyAtL (nodeKeys cs) m)) (.node (cs.take m)) := by
  set ks := nodeKeys cs with hks
  have hkslen : ks.length = cs.length := nodeKeys_length cs
  have hkb' := (forall_mem_drop_one_iff ks _).mp hkb
  have hkeys : nodeKeys (cs.take m) = ks.take m := nodeKeys_take cs m
  have hlen : (cs.take m).length = m := by
    rw [List.length_take]
    omega
  have hkl : (ks.take m).length = m := by
    rw [List.length_take]
    omega
  have hktake : ∀ a, a < m → keyAtL (ks.take m) a = keyAtL ks a :=
    fun a h => keyAtL_take_of_lt ks h
  apply WF.node
  · rw [hlen]
    exact h2
  · rw [hlen]
    exact hmI
  · rw [hkeys, pairwise_drop_one_iff]
    intro a b h1a hab hb
    rw [hkl] at hb
    rw [hktake a (by omega), hktake b (by omega)]
    exact keys_lt ks hsort h1a hab (by omega)
  · rw [hkeys, forall_mem_drop_one_iff]
    intro i h1i hi'
    rw [hkl] at hi'
    rw [hktake i hi']
    exact ⟨(hkb' i h1i (by omega)).1, keys_lt ks hsort h1i hi' (by omega)⟩
  · intro i hi'
    rw [hlen] at hi'
    rw [hkeys, childAt_take_of_lt cs hi']
    have hlo : childLo lo (ks.take m) i = childLo lo ks i := by
      by_cases h0 : i = 0
      · rw [h0, childLo_zero, childLo_zero]
      · rw [childLo_pos lo _ h0, childLo_pos lo ks h0, hktake i hi']
    have hhi2 : childHi (some (keyAtL ks m)) (ks.take m) i = childHi hi ks i := by
      by_cases hl : i + 1 = m
      · rw [childHi_last _ _ (by rw [hkl]; exact hl),
          childHi_mid hi ks (by omega), hl]
      · rw [childHi_mid _ _ (by rw [hkl]; omega),
          childHi_mid hi ks (by omega), hktake (i + 1) (by omega)]
    rw [hlo, hhi2]
    exact hch i (by omega)

/-- The slots of a well-formed node list from `m` on form a well-formed
node above the separator key at slot `m`. -/
theorem wf_node_drop (L I : Nat) (cs : List (Int × BTree))
    (lo hi : Option Int) (m : Nat)
    (hsort : ((nodeKeys cs).drop 1).Pairwise (· < ·))
    (hkb : ∀ x ∈ (nodeKeys cs).drop 1, loLT lo x ∧ ltHi x hi)
    (hch : ∀ i, i < cs.length →
      WF L I (childLo lo (nodeKeys cs) i) (childHi hi (nodeKeys cs) i)
        (childAt cs i))
    (hm1 : 1 ≤ m) (h2 : 2 ≤ cs.length - m) (hI2 : cs.length - m ≤ I) :
    WF L I (some (keyAtL (nodeKeys cs) m)) hi (.node (cs.drop m)) := by
  set ks := nodeKeys cs with hks
  have hkslen : ks.length = cs.length := nodeKeys_length cs
  have hkb' := (forall_mem_drop_one_iff ks _).mp hkb
  have hkeys : nodeKeys (cs.drop m) = ks.drop m := nodeKeys_drop cs m
  have hlen : (cs.drop m).length = cs.length - m := by rw [List.length_drop]
  have hkl : (ks.drop m).length = ks.length - m := by rw [List.length_drop]
  have hkdrop : ∀ a, keyAtL (ks.drop m) a = keyAtL ks (m + a) :=
    fun a => keyAtL_drop ks m a
  apply WF.node
  · rw [hlen]
    exact h2
  · rw [hlen]
    exact hI2
  · rw [hkeys, pairwise_drop_one_iff]
    intro a b h1a hab hb
    rw [hkl] at hb
    rw [hkdrop a, hkdrop b]
    exact keys_lt ks hsort (by omega) (by omega) (by omega)
  · rw [hkeys, forall_mem_drop_one_iff]
    intro i h1i hi'
    rw [hkl] at hi'
    rw [hkdrop i]
    exact ⟨keys_lt ks hsort (by omega) (by omega) (by omega),
      (hkb' (m + i) (by omega) (by omega)).2⟩
  · intro i hi'
    rw [hlen] at hi'
    rw [hkeys, childAt_drop cs m i]
    have hlo : childLo (some (keyAtL ks m)) (ks.drop m) i = childLo lo ks (m + i) := by
      by_cases h0 : i = 0
      · rw [h0, childLo_zero, childLo_pos lo ks (by omega), Nat.add_zero]
      · rw [childLo_pos _ _ h0, childLo_pos lo ks (by omega), hkdrop i]
    have hhi2 : childHi hi (ks.drop m) i = childHi hi ks (m + i) := by
      by_cases hl : m + i + 1 = ks.length
      · rw [childHi_last hi _ (by rw [hkl]; omega), childHi_last hi ks hl]
      · rw [childHi_mid hi _ (by rw [hkl]; omega),
          childHi_mid hi ks (by omega), hkdrop (i + 1), Nat.add_assoc]
    rw [hlo, hhi2]
    exact hch (m + i) (by omega)

/-- A weak lower window bound turns strict across a strict step. -/
theorem loLE_lt_trans {lo : Option Int} {a b : Int} (h1 : loLE lo a)
    (h2 : a < b) : loLT lo b := by
  cases lo with
  | none => trivial
  | some x => exact lt_of_le_of_lt h1 h2

/-- A slot key of a pair list is the first component of the slot. -/
theorem keyAtL_map_fst {β : Type} (es : List (Int × β)) (d : β) {i : Nat}
    (h : i < es.length) :
    keyAtL (es.map Prod.fst) i = (es.getD i (0, d)).1 := by
  rw [keyAtL, List.getD_eq_getElem?_getD, List.getElem?_map,
    List.getD_eq_getElem?_getD, List.getElem?_eq_getElem h]
  simp

/-- The leaf case of insertion correctness: a fresh key is inserted in
order; the leaf stays in place at up to `max_size` entries, and
otherwise splits into two sorted halves around the first key of the
upper half, the inserted entry landing in the half its key selects. -/
theorem insertRec_correct_leaf (L I : Nat) (hL : 1 ≤ L) (k : Int) (v : Nat)
    (es : List (Int × Nat)) (lo hi : Option Int)
    (hlen : es.length ≤ L)
    (hsort : (es.map Prod.fst).Pairwise (· < ·))
    (hbnd : ∀ e ∈ es, loLE lo e.1 ∧ ltHi e.1 hi)
    (hlo : loLE lo k) (hhi : ltHi k hi) :
    insOutcome L I k v lo hi (insertRec L I k v (.leaf es)) := by
  simp only [insertRec]
  by_cases hdup : (leafLookup es k).isSome = true
  · rw [if_pos hdup]
    trivial
  · have hfresh : leafLookup es k = none := by
      cases hcase : leafLookup es k
      · rfl
      · rw [hcase] at hdup
        simp at hdup
    rw [if_neg hdup]
    have hlen' : (leafInsert es k v).length = es.length + 1 :=
      leafInsert_length es k v hfresh
    have hsort' := leafInsert_sorted es k v hsort
    have hbnd' : ∀ e ∈ leafInsert es k v, loLE lo e.1 ∧ ltHi e.1 hi := by
      intro e he
      rcases mem_leafInsert es k v e he with h | h
      · exact hbnd e h
      · rw [h]
        exact ⟨hlo, hhi⟩
    have hfind : leafLookup (leafInsert es k v) k = some v :=
      leafLookup_leafInsert es k v hfresh
    by_cases hfit : (leafInsert es k v).length ≤ L
    · rw [if_pos hfit]
      exact ⟨WF.leaf lo hi _ hfit hsort' hbnd',
        by rw [getValueAux]; exact hfind⟩
    · rw [if_neg hfit]
      set es' := leafInsert es k v with hes'
      set m := (es'.length + 1) / 2 with hm
      have hLL : es'.length = L + 1 := by omega
      have hm1 : 1 ≤ m := by omega
      have hmlt : m < es'.length := by omega
      have hmaplen : (es'.map Prod.fst).length = es'.length := by simp
      set sep := keyAtL (es'.map Prod.fst) m with hsep
      have hsepentry : sep = (es'.getD m (0, 0)).1 := keyAtL_map_fst es' 0 hmlt
      have hentrym : es'.getD m (0, 0) ∈ es' :=
        (mem_iff_getD es' (0, 0) _).mpr ⟨m, hmlt, rfl⟩
      have hentry0 : es'.getD 0 (0, 0) ∈ es' :=
        (mem_iff_getD es' (0, 0) _).mpr ⟨0, by omega, rfl⟩
      have h0key : keyAtL (es'.map Prod.fst) 0 = (es'.getD 0 (0, 0)).1 :=
        keyAtL_map_fst es' 0 (by omega)
      have hseplo : loLT lo sep := by
        have h0m : keyAtL (es'.map Prod.fst) 0 < sep :=
          sortedL_lt _ hsort' (by omega) (by omega)
        have hb0 := (hbnd' _ hentry0).1
        rw [← h0key] at hb0
        exact loLE_lt_trans hb0 h0m
      have hsephi : ltHi sep hi := by
        rw [hsepentry]
        exact (hbnd' _ hentrym).2
      refine ⟨hseplo, hsephi, ?_, ?_, ?_, ?_⟩
      · apply WF.leaf
        · rw [List.length_take]
          omega
        · rw [List.map_take]
          exact hsort'.sublist (List.take_sublist m _)
        · intro e he
          obtain ⟨i, him, hil, heq⟩ := (mem_take_iff_getD es' (0, 0) e m).mp he
          have hees' : e ∈ es' := (mem_iff_getD es' (0, 0) e).mpr ⟨i, hil, heq⟩
          refine ⟨(hbnd' e hees').1, ?_⟩
          have hkey : e.1 = keyAtL (es'.map Prod.fst) i := by
            rw [keyAtL_map_fst es' 0 hil, heq]
          rw [hkey]
          exact sortedL_lt _ hsort' him (by omega)
      · apply WF.leaf
        · rw [List.length_drop]
          omega
        · rw [List.map_drop]
          exact hsort'.sublist (List.drop_sublist m _)
        · intro e he
          obtain ⟨i, hmi, hil, heq⟩ := (mem_drop_iff_getD es' (0, 0) e m).mp he
          have hees' : e ∈ es' := (mem_iff_getD es' (0, 0) e).mpr ⟨i, hil, heq⟩
          have hkey : e.1 = keyAtL (es'.map Prod.fst) i := by
            rw [keyAtL_map_fst es' 0 hil, heq]
          refine ⟨?_, (hbnd' e hees').2⟩
          rw [hkey]
          exact sortedL_le _ hsort' hmi (by omega)
      · intro hk
        rw [getValueAux]
        have hkv : (k, v) ∈ es' := leafLookup_mem es' k v hfind
        obtain ⟨i, hil, heq⟩ := (mem_iff_getD es' (0, 0) _).mp hkv
        have hkey : keyAtL (es'.map Prod.fst) i = k := by
          rw [keyAtL_map_fst es' 0 hil, heq]
        have him : i < m := by
          by_contra hcon
          have : sep ≤ keyAtL (es'.map Prod.fst) i :=
            sortedL_le _ hsort' (by omega) (by omega)
          omega
        apply leafLookup_eq_some_of_mem
        · rw [List.map_take]
          exact hsort'.sublist (List.take_sublist m _)
        · exact (mem_take_iff_getD es' (0, 0) _ m).mpr ⟨i, him, hil, heq⟩
      · intro hk
        rw [getValueAux]
        have hkv : (k, v) ∈ es' := leafLookup_mem es' k v hfind
        obtain ⟨i, hil, heq⟩ := (mem_iff_getD es' (0, 0) _).mp hkv
        have hkey : keyAtL (es'.map Prod.fst) i = k := by
          rw [keyAtL_map_fst es' 0 hil, heq]
        have him : m ≤ i := by
          by_contra hcon
          have : keyAtL (es'.map Prod.fst) i < sep :=
            sortedL_lt _ hsort' (by omega) (by omega)
          omega
        apply leafLookup_eq_some_of_mem
        · rw [List.map_drop]
          exact hsort'.sublist (List.drop_sublist m _)
        · exact (mem_drop_iff_getD es' (0, 0) _ m).mpr ⟨i, him, hil, heq⟩

/-- The descent at an internal node whose keys bracket `k` at slot `jn`
continues into child `jn`. -/
theorem getValueAux_node_eq (k : Int) (cs : List (Int × BTree)) (jn : Nat)
    (hsort : ((nodeKeys cs).drop 1).Pairwise (· < ·))
    (h2 : 2 ≤ cs.length) (hjn : jn < cs.length)
    (hbr1 : 1 ≤ jn → keyAtL (nodeKeys cs) jn ≤ k)
    (hbr2 : jn + 1 < cs.length → k < keyAtL (nodeKeys cs) (jn + 1)) :
    getValueAux k (.node cs) = getValueAux k (childAt cs jn) := by
  have hkslen : (nodeKeys cs).length = cs.length := nodeKeys_length cs
  have hslot : lookupSlot (nodeKeys cs) k = jn :=
    lookupSlot_eq (nodeKeys cs) k hsort (by omega) jn (by omega)
      hbr1 (fun h => hbr2 (by omega))
  rw [getValueAux, hslot, getChild_eq k cs jn hjn]

/-- Correctness of the insertion recursion: within a window containing
the fresh key, the rebuilt subtree (or the two split halves around the
pushed-up separator) is well-formed and the descent finds the inserted
value. -/
theorem insertRec_correct (L I : Nat) (hL : 1 ≤ L) (hI : 3 ≤ I) (k : Int)
    (v : Nat) (t : BTree) (lo hi : Option Int) (hwf : WF L I lo hi t)
    (hlo : loLE lo k) (hhi : ltHi k hi) :
    insOutcome L I k v lo hi (insertRec L I k v t) := by
  cases t with
  | leaf es =>
    cases hwf with
    | leaf _ _ _ hlen hsort hbnd =>
      exact insertRec_correct_leaf L I hL k v es lo hi hlen hsort hbnd hlo hhi
  | node cs =>
    cases hwf with
    | node _ _ _ hlen2 hlenI hsort hkb hch =>
    simp only [insertRec]
    have hkslen : (nodeKeys cs).length = cs.length := nodeKeys_length cs
    obtain ⟨hjlt, hjlo, hjhi⟩ := lookupSlot_spec (nodeKeys cs) k hsort (by omega)
    set j := lookupSlot (nodeKeys cs) k with hj
    have hjcs : j < cs.length := by omega
    rw [insertChild_eq L I k v cs j hjcs]
    have hclo : loLE (childLo lo (nodeKeys cs) j) k := by
      by_cases h0 : j = 0
      · rw [h0, childLo_zero]
        exact hlo
      · rw [childLo_pos lo _ h0]
        exact hjlo (by omega)
    have hchi : ltHi k (childHi hi (nodeKeys cs) j) := by
      by_cases hlast : j + 1 = (nodeKeys cs).length
      · rw [childHi_last hi _ hlast]
        exact hhi
      · rw [childHi_mid hi _ hlast]
        exact hjhi (by omega)
    have IH := insertRec_correct L I hL hI k v (childAt cs j) _ _
      (hch j hjcs) hclo hchi
    cases hres : insertRec L I k v (childAt cs j) with
    | dup =>
      exact trivial
    | one t' =>
      rw [hres] at IH
      obtain ⟨hWFt', hval⟩ := IH
      have hkeq : nodeKeys (cs.set j (keyAtL (nodeKeys cs) j, t')) = nodeKeys cs :=
        nodeKeys_set_self cs t' j
      refine ⟨?_, ?_⟩
      · apply WF.node
        · rw [List.length_set]
          omega
        · rw [List.length_set]
          omega
        · rw [hkeq]
          exact hsort
        · rw [hkeq]
          exact hkb
        · intro i hi'
          rw [List.length_set] at hi'
          rw [hkeq]
          by_cases hij : i = j
          · subst hij
            rw [childAt_set_self cs _ t' (by omega)]
            exact hWFt'
          · rw [childAt_set_ne cs _ hij]
            exact hch i hi'
      · rw [getValueAux, hkeq, ← hj,
          getChild_eq k _ j (by rw [List.length_set]; omega),
          childAt_set_self cs _ t' hjcs]
        exact hval
    | split l sep r =>
      rw [hres] at IH
      obtain ⟨hsepl, hsepr, hWFl, hWFr, hvl, hvr⟩ := IH
      obtain ⟨hseplo, hsephi, hsort', hkb'⟩ :=
        split_keys_wf (nodeKeys cs) lo hi j sep (by omega) hsort hkb hsepl hsepr
      have hch' := split_children_wf L I cs lo hi j l r sep hjcs hch hWFl hWFr
      set cs1 := cs.set j (keyAtL (nodeKeys cs) j, l) with hcs1
      set cs' := insertAt cs1 (j + 1) (sep, r) with hcs'
      have hcs1len : cs1.length = cs.length := by
        rw [hcs1, List.length_set]
      have hcs'len : cs'.length = cs.length + 1 := by
        rw [hcs', insertAt_length cs1 (sep, r) (by omega), hcs1len]
      have hkeq : nodeKeys cs' = insertAt (nodeKeys cs) (j + 1) sep := by
        rw [hcs', nodeKeys_insertAt, hcs1, nodeKeys_set_self]
      have hks'len : (insertAt (nodeKeys cs) (j + 1) sep).length
          = (nodeKeys cs).length + 1 := insertAt_length _ sep (by omega)
      have hnk'len : (nodeKeys cs').length = cs.length + 1 := by
        rw [hkeq, hks'len]
        omega
      have hk'lt : ∀ a, a < j + 1 →
          keyAtL (insertAt (nodeKeys cs) (j + 1) sep) a = keyAtL (nodeKeys cs) a :=
        fun a h => keyAtL_insertAt_of_lt _ sep h (by omega)
      have hk'self : keyAtL (insertAt (nodeKeys cs) (j + 1) sep) (j + 1) = sep :=
        keyAtL_insertAt_self _ sep (by omega)
      have hk'gt : ∀ a, j + 1 < a →
          keyAtL (insertAt (nodeKeys cs) (j + 1) sep) a = keyAtL (nodeKeys cs) (a - 1) :=
        fun a h => keyAtL_insertAt_of_gt _ sep h (by omega)
      have hsort'' : ((nodeKeys cs').drop 1).Pairwise (· < ·) := by
        rw [hkeq]
        exact hsort'
      have hkbcs' : ∀ x ∈ (nodeKeys cs').drop 1, loLT lo x ∧ ltHi x hi := by
        rw [hkeq]
        exact hkb'
      have hch'' : ∀ i, i < cs'.length →
          WF L I (childLo lo (nodeKeys cs') i) (childHi hi (nodeKeys cs') i)
            (childAt cs' i) := by
        intro i hi'
        rw [hkeq]
        exact hch' i (by omega)
      show insOutcome L I k v lo hi
        (if cs'.length ≤ I then InsertResult.one (.node cs')
         else InsertResult.split
           (.node (cs'.take (max (internalMinSize I) 2)))
           (keyAtL (nodeKeys cs') (max (internalMinSize I) 2))
           (.node (cs'.drop (max (internalMinSize I) 2))))
      by_cases hfit : cs'.length ≤ I
      · rw [if_pos hfit]
        refine ⟨?_, ?_⟩
        · apply WF.node
          · omega
          · exact hfit
          · exact hsort''
          · exact hkbcs'
          · exact hch''
        · by_cases hk : k < sep
          · have hred := getValueAux_node_eq k cs' j hsort'' (by omega) (by omega)
              (by
                intro h1j
                rw [hkeq, hk'lt j (by omega)]
                exact hjlo h1j)
              (by
                intro hj1
                rw [hkeq, hk'self]
                exact hk)
            rw [hred, hcs', childAt_insertAt_of_lt cs1 (sep, r) (by omega) (by omega),
              hcs1, childAt_set_self cs _ l hjcs]
            exact hvl hk
          · have hk' : sep ≤ k := not_lt.mp hk
            have hred := getValueAux_node_eq k cs' (j + 1) hsort'' (by omega) (by omega)
              (by
                intro h1j
                rw [hkeq, hk'self]
                exact hk')
              (by
                intro hj1
                rw [hkeq, hk'gt (j + 2) (by omega)]
                exact hjhi (by omega))
            rw [hred, hcs', childAt_insertAt_self cs1 (sep, r) (by omega)]
            exact hvr hk'
      · rw [if_neg hfit]
        have hm2 : 2 ≤ max (internalMinSize I) 2 := le_max_right _ _
        have hmI1 : max (internalMinSize I) 2 ≤ I - 1 := by
          have : internalMinSize I = (I + 2) / 2 := rfl
          omega
        set m := max (internalMinSize I) 2 with hmdef
        have hcsI : cs.length = I := by omega
        have hkbIdx := (forall_mem_drop_one_iff (nodeKeys cs') _).mp hkbcs'
        refine ⟨?_, ?_, ?_, ?_, ?_, ?_⟩
        · exact (hkbIdx m (by omega) (by omega)).1
        · exact (hkbIdx m (by omega) (by omega)).2
        · exact wf_node_take L I cs' lo hi m hsort'' hkbcs' hch'' hm2
            (by omega) (by omega)
        · exact wf_node_drop L I cs' lo hi m hsort'' hkbcs' hch''
            (by omega) (by omega) (by omega)
        · intro hk2
          by_cases hk : k < sep
          · have hjm : j < m := by
              by_contra hcon
              have hmono := keys_le (nodeKeys cs') hsort''
                (show 1 ≤ m by omega) (show m ≤ j by omega)
                (show j < (nodeKeys cs').length by omega)
              have hj' : keyAtL (nodeKeys cs') j ≤ k := by
                rw [hkeq, hk'lt j (by omega)]
                exact hjlo (by omega)
              omega
            have hred := getValueAux_node_eq k (cs'.take m) j
              (by
                rw [nodeKeys_take, pairwise_drop_one_iff]
                intro a b h1a hab hb
                rw [List.length_take] at hb
                rw [keyAtL_take_of_lt _ (show a < m by omega),
                  keyAtL_take_of_lt _ (show b < m by omega)]
                exact keys_lt _ hsort'' h1a hab (by omega))
              (by
                rw [List.length_take]
                omega)
              (by
                rw [List.length_take]
                omega)
              (by
                intro h1j
                rw [nodeKeys_take, keyAtL_take_of_lt _ (by omega), hkeq,
                  hk'lt j (by omega)]
                exact hjlo h1j)
              (by
                intro hj1
                rw [List.length_take] at hj1
                rw [nodeKeys_take, keyAtL_take_of_lt _ (by omega), hkeq, hk'self]
                exact hk)
            rw [hred, childAt_take_of_lt cs' hjm, hcs',
              childAt_insertAt_of_lt cs1 (sep, r) (by omega) (by omega),
              hcs1, childAt_set_self cs _ l hjcs]
            exact hvl hk
          · have hk' : sep ≤ k := not_lt.mp hk
            have hjm : j + 1 < m := by
              by_contra hcon
              have hmono := keys_le (nodeKeys cs') hsort''
                (show 1 ≤ m by omega) (show m ≤ j + 1 by omega)
                (show j + 1 < (nodeKeys cs').length by omega)
              have hsepeq : keyAtL (nodeKeys cs') (j + 1) = sep := by
                rw [hkeq]
                exact hk'self
              omega
            have hred := getValueAux_node_eq k (cs'.take m) (j + 1)
              (by
                rw [nodeKeys_take, pairwise_drop_one_iff]
                intro a b h1a hab hb
                rw [List.length_take] at hb
                rw [keyAtL_take_of_lt _ (show a < m by omega),
                  keyAtL_take_of_lt _ (show b < m by omega)]
                exact keys_lt _ hsort'' h1a hab (by omega))
              (by
                rw [List.length_take]
                omega)
              (by
                rw [List.length_take]
                omega)
              (by
                intro h1j
                rw [nodeKeys_take, keyAtL_take_of_lt _ (by omega), hkeq, hk'self]
                exact hk')
              (by
                intro hj1
                rw [List.length_take] at hj1
                rw [nodeKeys_take, keyAtL_take_of_lt _ (by omega), hkeq,
                  hk'gt (j + 2) (by omega)]
                exact hjhi (by omega))
            rw [hred, childAt_take_of_lt cs' hjm, hcs',
              childAt_insertAt_self cs1 (sep, r) (by omega)]
            exact hvr hk'
        · intro hk2
          by_cases hk : k < sep
          · have hjm : m ≤ j := by
              by_contra hcon
              have hmono := keys_le (nodeKeys cs') hsort''
                (show 1 ≤ j + 1 by omega) (show j + 1 ≤ m by omega)
                (show m < (nodeKeys cs').length by omega)
              have hsepeq : keyAtL (nodeKeys cs') (j + 1) = sep := by
                rw [hkeq]
                exact hk'self
              omega
            have hred := getValueAux_node_eq k (cs'.drop m) (j - m)
              (by
                rw [nodeKeys_drop, pairwise_drop_one_iff]
                intro a b h1a hab hb
                rw [List.length_drop] at hb
                rw [keyAtL_drop, keyAtL_drop]
                exact keys_lt _ hsort'' (by omega) (by omega) (by omega))
              (by
                rw [List.length_drop]
                omega)
              (by
                rw [List.length_drop]
                omega)
              (by
                intro h1j
                rw [nodeKeys_drop, keyAtL_drop, show m + (j - m) = j by omega,
                  hkeq, hk'lt j (by omega)]
                exact hjlo (by omega))
              (by
                intro hj1
                rw [List.length_drop] at hj1
                rw [nodeKeys_drop, keyAtL_drop,
                  show m + (j - m + 1) = j + 1 by omega, hkeq, hk'self]
                exact hk)
            rw [hred, childAt_drop cs' m (j - m), show m + (j - m) = j by omega,
              hcs', childAt_insertAt_of_lt cs1 (sep, r) (by omega) (by omega),
              hcs1, childAt_set_self cs _ l hjcs]
            exact hvl hk
          · have hk' : sep ≤ k := not_lt.mp hk
            have hjm : m ≤ j + 1 := by
              by_contra hcon
              have hb2 : k < keyAtL (nodeKeys cs') (j + 2) := by
                rw [hkeq, hk'gt (j + 2) (by omega)]
                exact hjhi (by omega)
              have hmono := keys_le (nodeKeys cs') hsort''
                (show 1 ≤ j + 2 by omega) (show j + 2 ≤ m by omega)
                (show m < (nodeKeys cs').length by omega)
              omega
            have hred := getValueAux_node_eq k (cs'.drop m) (j + 1 - m)
              (by
                rw [nodeKeys_drop, pairwise_drop_one_iff]
                intro a b h1a hab hb
                rw [List.length_drop] at hb
                rw [keyAtL_drop, keyAtL_drop]
                exact keys_lt _ hsort'' (by omega) (by omega) (by omega))
              (by
                rw [List.length_drop]
                omega)
              (by
                rw [List.length_drop]
                omega)
              (by
                intro h1j
                rw [nodeKeys_drop, keyAtL_drop,
                  show m + (j + 1 - m) = j + 1 by omega, hkeq, hk'self]
                exact hk')
              (by
                intro hj1
                rw [List.length_drop] at hj1
                rw [nodeKeys_drop, keyAtL_drop,
                  show m + (j + 1 - m + 1) = j + 2 by omega, hkeq,
                  hk'gt (j + 2) (by omega)]
                exact hjhi (by omega))
            rw [hred, childAt_drop cs' m (j + 1 - m),
              show m + (j + 1 - m) = j + 1 by omega, hcs',
              childAt_insertAt_self cs1 (sep, r) (by omega)]
            exact hvr hk'
termination_by sizeOf t
decreasing_by
  have h := sizeOf_childAt_lt cs hjcs
  rw [hj] at h
  simp_all

/-- C7: for every well-formed tree state and key `k` (leaf capacity at
least 1, internal capacity at least 3): if `k` is absent, `insert(k,v)`
returns true and a subsequent `get_value(k)` returns exactly `v`; if
`k` is present, `insert(k,v)` returns false and leaves the tree
unchanged (the very same root structure). -/
theorem insert_then_lookup (L I : Nat) (hL : 1 ≤ L) (hI : 3 ≤ I)
    (root : Option BTree) (hwf : WFRoot L I root) (k : Int) (v : Nat) :
    (treeGetValue root k = none →
      (treeInsert L I root k v).1 = true ∧
      treeGetValue (treeInsert L I root k v).2 k = some v) ∧
    (∀ w, treeGetValue root k = some w →
      treeInsert L I root k v = (false, root)) := by
  cases root with
  | none =>
    refine ⟨fun _ => ⟨rfl, ?_⟩, fun w hw => by simp [treeGetValue] at hw⟩
    simp [treeInsert, treeGetValue, getValueAux, leafLookup]
  | some t =>
    have hwf' : WF L I none none t := hwf
    constructor
    · intro hnone
      have hnone' : getValueAux k t = none := by
        simpa [treeGetValue] using hnone
      have hnd : ¬ insertRec L I k v t = .dup := by
        rw [insertRec_dup_iff]
        simp [hnone']
      have hcor := insertRec_correct L I hL hI k v t none none hwf'
        trivial trivial
      cases hres : insertRec L I k v t with
      | dup => exact absurd hres hnd
      | one t' =>
        rw [hres] at hcor
        obtain ⟨hW, hval⟩ := hcor
        refine ⟨by simp [treeInsert, hres], ?_⟩
        simp only [treeInsert, hres, treeGetValue]
        exact hval
      | split l sep r =>
        rw [hres] at hcor
        obtain ⟨h1, h2, hWl, hWr, hvl, hvr⟩ := hcor
        refine ⟨by simp [treeInsert, hres], ?_⟩
        simp only [treeInsert, hres, treeGetValue]
        rw [getValueAux]
        by_cases hk : k < sep
        · have hslot : lookupSlot (nodeKeys [(0, l), (sep, r)]) k = 0 := by
            rw [lookupSlot, if_pos (show k < keyAtL (nodeKeys [(0, l), (sep, r)]) 1 from hk)]
          rw [hslot]
          exact hvl hk
        · have hk' : sep ≤ k := not_lt.mp hk
          have hslot : lookupSlot (nodeKeys [(0, l), (sep, r)]) k = 1 := by
            rw [lookupSlot,
              if_neg (show ¬ k < keyAtL (nodeKeys [(0, l), (sep, r)]) 1 from hk),
              if_pos (show keyAtL (nodeKeys [(0, l), (sep, r)])
                ((nodeKeys [(0, l), (sep, r)]).length - 1) ≤ k from hk')]
            rfl
          rw [hslot]
          exact hvr hk'
    · intro w hw
      have hw' : getValueAux k t = some w := by
        simpa [treeGetValue] using hw
      have hdup : insertRec L I k v t = .dup := by
        rw [insertRec_dup_iff]
        simp [hw']
      simp [treeInsert, hdup]

/-- C7 witness: in the single-leaf tree holding `1 ↦ 10` (with
`L = 2`, `I = 3`), inserting the absent key 2 returns true and looking
2 up afterwards returns 20, while inserting the present key 1 returns
false with the tree unchanged. -/
theorem insert_then_lookup_witness :
    treeGetValue (some (.leaf [(1, 10)])) 2 = none ∧
    (treeInsert 2 3 (some (.leaf [(1, 10)])) 2 20).1 = true ∧
    treeGetValue (treeInsert 2 3 (some (.leaf [(1, 10)])) 2 20).2 2 = some 20 ∧
    treeInsert 2 3 (some (.leaf [(1, 10)])) 1 99 = (false, some (.leaf [(1, 10)])) := by
  have hwf : WFRoot 2 3 (some (.leaf [(1, 10)])) :=
    WF.leaf none none [(1, 10)] (by decide) (by decide)
      (fun e _ => ⟨trivial, trivial⟩)
  have h1 := (insert_then_lookup 2 3 (by decide) (by decide) _ hwf 2 20).1
    (by decide)
  have h2 := (insert_then_lookup 2 3 (by decide) (by decide) _ hwf 1 99).2 10
    (by decide)
  exact ⟨by decide, h1.1, h1.2, h2⟩

/-- C5: on an internal node whose real keys (slots `1 .. size-1`) are
strictly increasing, `Lookup(k)` returns `value_at(0)` when
`k < key_at(1)`; returns `value_at(size-1)` when `k ≥ key_at(size-1)`;
and otherwise returns the child at the slot `i` satisfying
`key_at(i) ≤ k < key_at(i+1)`. -/
theorem internal_lookup_spec (n : InternalNode) (k : Int)
    (hs : ((n.arr.map Prod.fst).drop 1).Pairwise (· < ·))
    (hlen : 2 ≤ n.size) :
    (k < n.keyAt 1 → n.Lookup k = n.valueAt 0) ∧
    (n.keyAt (n.size - 1) ≤ k → n.Lookup k = n.valueAt (n.size - 1)) ∧
    (∀ i, 1 ≤ i → i + 1 ≤ n.size - 1 → n.keyAt i ≤ k → k < n.keyAt (i + 1) →
      n.Lookup k = n.valueAt i) := by
  have hlen' : n.arr.length = n.size := by
    simp [InternalNode.size]
  have hmaplen : (n.arr.map Prod.fst).length = n.size := by
    simp [InternalNode.size]
  refine ⟨?_, ?_, ?_⟩
  · intro h
    have h0 : lookupSlot (n.arr.map Prod.fst) k = 0 :=
      lookupSlot_eq _ k hs (by omega) 0 (by omega) (by omega)
        (fun _ => by
          have : keyAtL (n.arr.map Prod.fst) (0 + 1) = n.keyAt 1 := rfl
          rw [this]
          exact h)
    rw [InternalNode.Lookup, h0]
  · intro h
    have h0 : lookupSlot (n.arr.map Prod.fst) k = n.size - 1 :=
      lookupSlot_eq _ k hs (by omega) (n.size - 1) (by omega)
        (fun _ => h) (by omega)
    rw [InternalNode.Lookup, h0]
  · intro i h1 h2 h3 h4
    have h0 : lookupSlot (n.arr.map Prod.fst) k = i :=
      lookupSlot_eq _ k hs (by omega) i (by omega)
        (fun _ => h3) (fun _ => h4)
    rw [InternalNode.Lookup, h0]

/-- C5 witness: on the concrete node with children `100, 101, 102`
separated by keys `5` and `9`, looking up `7` returns the middle child
(the slot with `5 ≤ 7 < 9`), looking up `3` returns the leftmost child
and looking up `12` the rightmost. -/
theorem internal_lookup_spec_witness :
    InternalNode.Lookup ⟨[(0, 100), (5, 101), (9, 102)]⟩ 7 = 101 ∧
    InternalNode.Lookup ⟨[(0, 100), (5, 101), (9, 102)]⟩ 3 = 100 ∧
    InternalNode.Lookup ⟨[(0, 100), (5, 101), (9, 102)]⟩ 12 = 102 := by
  have h := internal_lookup_spec ⟨[(0, 100), (5, 101), (9, 102)]⟩ 7
    (by decide) (by decide)
  have h3 := internal_lookup_spec ⟨[(0, 100), (5, 101), (9, 102)]⟩ 3
    (by decide) (by decide)
  have h12 := internal_lookup_spec ⟨[(0, 100), (5, 101), (9, 102)]⟩ 12
    (by decide) (by decide)
  refine ⟨?_, ?_, ?_⟩
  · have := h.2.2 1 (by decide) (by decide) (by decide) (by decide)
    simpa using this
  · have := h3.1 (by decide)
    simpa using this
  · have := h12.2.1 (by decide)
    simpa using this

/-- C10 witness: a concrete iterator at the end of a one-leaf index;
after `++` it is past the end and `IsEnd` is false. -/
theorem isEnd_not_absorbing_witness :
    let it : IndexIterator :=
      { pages := fun _ => { entries := [(1, 1), (2, 2)], nextPageId := -1 },
        pid := 3, index := 2 }
    it.IsEnd = true ∧ (it.inc).IsEnd = false ∧ (it.inc).index = 3 := by
  refine ⟨by decide, ?_⟩
  have h := isEnd_not_absorbing
    { pages := fun _ => { entries := [(1, 1), (2, 2)], nextPageId := -1 },
      pid := 3, index := 2 } (by decide)
  exact ⟨h.1, h.2⟩

end Bustub
